import Mathlib

/-!
# A verification development for the sphere ray tracer (`src/main.cpp`)

The tracing engine of `main.cpp` is embedded function by function.

Modelling conventions.
* C++ `float` values are idealised as real numbers: `sqrtf` is `Real.sqrt`, `powf x n`
  for the integer exponents used in the source is `x ^ n`, `fmin`/`fmax` are `min`/`max`.
  Rounding, infinities and NaN are outside the model.  A division by zero (normalising a
  zero vector) evaluates to `0` here; the theorems that depend on a unit direction carry
  the hypothesis that the direction is not the zero vector.  Where a claim turns on
  such a division, the computation is also given with its divisions checked
  (`pixelDirChecked`): `none` stands for a value that is not a real number.  Real
  arithmetic is not executable, so concrete inputs are evaluated by rewriting (`simp`,
  `norm_num`).
* A C++ reference out-parameter (`float &distance`) becomes an extra argument carrying the
  value held before the call and an extra component of the result carrying the value
  held after it.
* A `for` loop over a `std::vector` becomes a fold (or a structural recursion when the
  body returns early) over a `List`.
* `int bounces` is an `Int`; it never leaves `[-2^31, 10]` on the way up, so no overflow
  is involved.
-/

namespace RayTracer

noncomputable section

/-! ## Data model -/

/-- Class `Vec3`: three `float` coordinates. -/
@[ext]
structure Vec3 where
  x : ℝ
  y : ℝ
  z : ℝ

namespace Vec3

/-- Constructor `Vec3()`. -/
def zero : Vec3 := ⟨0, 0, 0⟩

/-- Constructor `Vec3(float xyz)`. -/
def splat (xyz : ℝ) : Vec3 := ⟨xyz, xyz, xyz⟩

/-- Method `getLength`. -/
def getLength (v : Vec3) : ℝ :=
  Real.sqrt ((v.x * v.x) + (v.y * v.y) + (v.z * v.z))

/-- Method `normalize`; the in-place update is returned as a new value. -/
def normalize (v : Vec3) : Vec3 :=
  let s := 1 / v.getLength
  ⟨v.x * s, v.y * s, v.z * s⟩

/-- Method `dotProduct`. -/
def dotProduct (v other : Vec3) : ℝ :=
  other.x * v.x + other.y * v.y + other.z * v.z

/-- Binary `operator+`. -/
def add (v other : Vec3) : Vec3 := ⟨v.x + other.x, v.y + other.y, v.z + other.z⟩

/-- Binary `operator-`. -/
def sub (v other : Vec3) : Vec3 := ⟨v.x - other.x, v.y - other.y, v.z - other.z⟩

/-- Both `operator*` overloads (`v * scale` and `scale * v`): each multiplies every
coordinate by the scalar, the coordinate on the left. -/
def scale (v : Vec3) (s : ℝ) : Vec3 := ⟨v.x * s, v.y * s, v.z * s⟩

/-- Unary `operator-`. -/
def neg (v : Vec3) : Vec3 := ⟨-v.x, -v.y, -v.z⟩

end Vec3

/-- Class `Ray`. -/
structure Ray where
  pos : Vec3
  dir : Vec3

/-- Class `Material`. -/
structure Material where
  color : Vec3
  roughness : ℝ

/-- Class `Ball`. -/
structure Ball where
  pos : Vec3
  material : Material
  radius : ℝ

/-- Class `Light`. -/
structure Light where
  pos : Vec3
  color : Vec3
  brightness : ℝ

/-- Class `Camera`. -/
structure Camera where
  pos : Vec3
  dir : Vec3
  fov : ℝ

/-- Class `Scene`. -/
structure Scene where
  balls : List Ball
  lights : List Light
  camera : Camera

/-- Default constructor `Ray()`. -/
def Ray.empty : Ray := ⟨Vec3.zero, Vec3.zero⟩

/-- Default constructor `Material()`. -/
def Material.empty : Material := ⟨Vec3.zero, 0⟩

/-- Default constructor `Ball()`. -/
def Ball.empty : Ball := ⟨Vec3.zero, Material.empty, 0⟩

/-! ## Sphere geometry -/

/-- Method `Ball::intersect(const Ray &in, float &distance)`.  The argument `distance` is
the value of the out-parameter before the call; the result is the returned flag together
with the value of the out-parameter after the call. -/
def Ball.intersect (self : Ball) (r : Ray) (distance : ℝ) : Bool × ℝ :=
  let L := r.pos.sub self.pos
  let dir := r.dir.normalize
  let a := dir.dotProduct dir
  let b := 2 * dir.dotProduct L
  let c := L.dotProduct L - self.radius * self.radius
  let discriminant := b * b - 4 * a * c
  if discriminant ≤ 0 then (false, distance)
  else
    let root := Real.sqrt discriminant
    let t0 := (-b + root) / (2 * a)
    let t1 := (-b - root) / (2 * a)
    let t := if t0 < t1 then t0 else t1
    if t < 0 then (false, distance)
    else (true, t)

/-- Method `Ball::getNormal`. -/
def Ball.getNormal (self : Ball) (point : Vec3) : Vec3 :=
  (point.sub self.pos).normalize

/-- Method `Ball::getMirrored`. -/
def Ball.getMirrored (self : Ball) (dir point : Vec3) : Vec3 :=
  let inv := (dir.scale (-1)).normalize
  let normal := self.getNormal point
  let projection := normal.scale (normal.dotProduct inv)
  (projection.add projection).sub inv

/-! ## Shading pipeline -/

/-- Function `computeBackground`. -/
def computeBackground (ray : Ray) (scene : Scene) : Vec3 :=
  let bg := Vec3.splat 0.05
  let dir := ray.dir.normalize
  let dot := scene.lights.foldl
    (fun (dot : ℝ) (light : Light) =>
      let light_dir := (ray.pos.sub light.pos).normalize
      let dot_product := light_dir.dotProduct dir.neg
      if dot_product > dot then dot_product else dot)
    0
  let bg_light :=
    if dot > 0.991 then
      let dot1 := (dot - 0.991) * 130
      let dot2 := dot1 ^ 8
      Vec3.mk (min dot2 1) (min dot2 1) (min dot2 1)
    else Vec3.splat 0
  Vec3.splat (min (bg.x + bg_light.x) 1)

/-- The loop of `checkShadow` over the balls, with its early `return true`.  The local
`float distance` is uninitialised in the source and never read; it is passed as `0`. -/
def checkShadowLoop (light : Light) (pos : Vec3) : List Ball → Bool
  | [] => false
  | b :: rest =>
    let dir := light.pos.sub pos
    if (b.intersect ⟨pos, dir⟩ 0).1 then true
    else checkShadowLoop light pos rest

/-- Function `checkShadow`; the parameter `ball` is unused by the live code. -/
def checkShadow (scene : Scene) (light : Light) (pos : Vec3) (_ball : Ball) : Bool :=
  checkShadowLoop light pos scene.balls

/-- Function `computeBrightness`; the result is the pair of out-parameters
`(specular, diffuce)` after the call.  The statement `diffuce =+ e` of the source is the
assignment `diffuce = +e`, and so is `specular =+ e`. -/
def computeBrightness (ray : Ray) (scene : Scene) (normal_ray : Ray) (ball : Ball) : ℝ × ℝ :=
  let normal := normal_ray.dir
  let pos := normal_ray.pos
  let dir := ray.dir
  let mirrored := ball.getMirrored dir pos
  scene.lights.foldl
    (fun (acc : ℝ × ℝ) (light : Light) =>
      if checkShadow scene light pos ball then acc
      else
        let light_dir := (light.pos.sub pos).normalize
        (mirrored.dotProduct light_dir, normal.dotProduct light_dir))
    (0, 0)

/-- The locals of `trace` that its nearest-hit loop updates. -/
structure Nearest where
  closest_distance : ℝ
  ball : Ball
  normal_ray : Ray

/-- One iteration of the nearest-hit loop of `trace`.  The local `float distance` is
uninitialised in the source and read only after `intersect` has written it; it is passed
as `0`. -/
def nearestStep (ray : Ray) (st : Nearest) (b : Ball) : Nearest :=
  let res := b.intersect ray 0
  if res.1 then
    if res.2 < st.closest_distance ∨ st.closest_distance < 0 then
      let point := (ray.dir.scale res.2).add ray.pos
      ⟨res.2, b, ⟨point, b.getNormal point⟩⟩
    else st
  else st

/-- The nearest-hit loop of `trace`, started from `closest_distance = -1`, `Ball()` and
`Ray()`. -/
def nearestHit (ray : Ray) (scene : Scene) : Nearest :=
  scene.balls.foldl (nearestStep ray) ⟨-1, Ball.empty, Ray.empty⟩

/-- The value of `pixel` in `trace` right after the line commented
"Phong illumination model". -/
def localColor (ray : Ray) (scene : Scene) (st : Nearest) : Vec3 :=
  let sd := computeBrightness ray scene st.normal_ray st.ball
  let specular := sd.1
  let diffuce := sd.2
  let ball_color := st.ball.material.color.scale 0.25
  ((ball_color.add (ball_color.scale (max diffuce 0))).add
    (ball_color.scale (max (specular ^ 15) 0)))

/-- The ray `new_ray` that `trace` follows after a hit. -/
def reflectedRay (ray : Ray) (st : Nearest) : Ray :=
  ⟨st.normal_ray.pos, st.ball.getMirrored ray.dir st.normal_ray.pos⟩

/-- Function `trace`. -/
def trace (ray : Ray) (scene : Scene) (bounces : Int) : Vec3 :=
  let st := nearestHit ray scene
  if st.closest_distance < 0 then computeBackground ray scene
  else
    let pixel := localColor ray scene st
    if bounces < 10 then
      ((pixel.scale 0.3).add ((trace (reflectedRay ray st) scene (bounces + 1)).scale 0.6))
    else pixel
termination_by (10 - bounces).toNat
decreasing_by omega

/-- Function `trace` with a ghost log: the second component lists the `bounces` arguments
of the recursive calls made, directly or transitively, in call order.  The first
component is computed exactly as in `trace`. -/
def traceLogged (ray : Ray) (scene : Scene) (bounces : Int) : Vec3 × List Int :=
  let st := nearestHit ray scene
  if st.closest_distance < 0 then (computeBackground ray scene, [])
  else
    let pixel := localColor ray scene st
    if bounces < 10 then
      let rec_call := traceLogged (reflectedRay ray st) scene (bounces + 1)
      ((pixel.scale 0.3).add (rec_call.1.scale 0.6), (bounces + 1) :: rec_call.2)
    else (pixel, [])
termination_by (10 - bounces).toNat
decreasing_by omega

/-! ## Animation, ray generation and the frame loop -/

/-- Method `Light::rotate`; `cosf(0.03f)` and `sinf(0.03f)` are the real cosine and sine
of `0.03`. -/
def Light.rotate (self : Light) : Light :=
  let cosalpha := Real.cos 0.03
  let sinalpha := Real.sin 0.03
  let temp_x := self.pos.x
  let temp_z := self.pos.z
  ⟨⟨temp_x * cosalpha + temp_z * sinalpha, self.pos.y,
      -temp_x * sinalpha + temp_z * cosalpha⟩, self.color, self.brightness⟩

/-- Method `Scene::update`: every light is rotated in place; the call to `camera.move` is
commented out in the source. -/
def Scene.update (self : Scene) : Scene :=
  ⟨self.balls, self.lights.map Light.rotate, self.camera⟩

/-- Function `vectorAngle`; `M_PI` is `Real.pi` and `atanf` is `Real.arctan`. -/
def vectorAngle (x y : ℝ) : ℝ :=
  if x = 0 then
    (if y > 0 then 0.5 * Real.pi
      else if y = 0 then 0
      else 1.5 * Real.pi)
  else if y = 0 then
    (if x ≥ 0 then 0
      else Real.pi)
  else
    let ret := Real.arctan (y / x)
    if x < 0 ∧ y < 0 then Real.pi + ret
    else if x < 0 then Real.pi + ret
    else if y < 0 then 1.5 * Real.pi + (0.5 * Real.pi + ret)
    else ret

/-- The local `z` of `computeRays`: `h/tanf(fov/180*M_PI)*0.5f`, that is
`(h / tan(fov/180·π)) · 0.5`. -/
def projectionDistance (h : Int) (fov : ℝ) : ℝ :=
  (h : ℝ) / Real.tan (fov / 180 * Real.pi) * 0.5

/-- The update of `dir.x` and `dir.z` in the loop body of `computeRays`; `dir.y` is not
assigned. -/
def yawRotate (cosalpha sinalpha : ℝ) (dir : Vec3) : Vec3 :=
  let temp_x := dir.x
  let temp_z := dir.z
  ⟨temp_x * cosalpha + temp_z * sinalpha, dir.y, -temp_x * sinalpha + temp_z * cosalpha⟩

/-- The body of the inner loop of `computeRays`: the ray pushed for the pixel `(x, y)`. -/
def pixelRay (w h : Int) (camera : Camera) (x y : Int) : Ray :=
  let cam_dir := camera.dir
  let cam_pos := camera.pos
  let z := projectionDistance h camera.fov
  let alpha := vectorAngle cam_dir.x cam_dir.z
  let cosalpha := Real.cos alpha
  let sinalpha := Real.sin alpha
  let dir := Vec3.normalize ⟨(x : ℝ) + 0.5 - (w : ℝ) * 0.5, -((y : ℝ) + 0.5 - (h : ℝ) * 0.5), z⟩
  ⟨cam_pos, yawRotate cosalpha sinalpha dir⟩

/-- Function `computeRays`; the first argument is the buffer before the call and the
result is the buffer after it.  `rays.clear()` restarts from the empty list and each
`push_back` appends at the end. -/
def computeRays (_rays : List Ray) (w h : Int) (camera : Camera) : List Ray :=
  (List.range h.toNat).foldl
    (fun (rays : List Ray) (y : ℕ) =>
      (List.range w.toNat).foldl
        (fun (rays : List Ray) (x : ℕ) => rays ++ [pixelRay w h camera x y])
        rays)
    []

/-- The state that the render loop of `main` carries from frame to frame. -/
structure LoopState where
  rays : List Ray
  scene : Scene

/-- The constant `width` of `main`. -/
def width : Int := 1280

/-- The constant `height` of `main`. -/
def height : Int := 720

/-- The state of `main` on entry to the render loop, for the scene returned by
`setupScene`: `computeRays(rays, width, height, scene.getCamera())` has run once. -/
def mainInit (scene : Scene) : LoopState :=
  ⟨computeRays [] width height scene.camera, scene⟩

/-- The lookup `rays[y*width + x]` of the pixel loop; `none` stands for an index outside
the vector. -/
def rayLookup (rays : List Ray) (x y : Int) : Option Ray :=
  if 0 ≤ y * width + x then rays[(y * width + x).toNat]? else none

/-- The colour traced for pixel `(x, y)` in the current frame, when its lookup is in
bounds. -/
def pixelColor (st : LoopState) (x y : Int) : Option Vec3 :=
  (rayLookup st.rays x y).map (fun ray => trace ray st.scene 0)

/-- The effect of one iteration of the render loop on its state: after the pixel loop
and `display->update()`, `rays.clear()` empties the buffer (`moveRays` is commented out)
and `scene.update()` advances the lights. -/
def frameStep (st : LoopState) : LoopState :=
  ⟨[], st.scene.update⟩

/-- The unit direction `d = normalize(ray.dir)`. -/
def unitDir (ray : Ray) : Vec3 := ray.dir.normalize

/-- The offset `L = ray.origin - center`. -/
def offset (ball : Ball) (ray : Ray) : Vec3 := ray.pos.sub ball.pos

/-- Coefficient `a = d·d`. -/
def quadA (ray : Ray) : ℝ := (unitDir ray).dotProduct (unitDir ray)

/-- Coefficient `b = 2·(d·L)`. -/
def quadB (ball : Ball) (ray : Ray) : ℝ := 2 * (unitDir ray).dotProduct (offset ball ray)

/-- Coefficient `c = L·L - radius²`. -/
def quadC (ball : Ball) (ray : Ray) : ℝ :=
  (offset ball ray).dotProduct (offset ball ray) - ball.radius ^ 2

/-- The discriminant `b² - 4ac`. -/
def disc (ball : Ball) (ray : Ray) : ℝ :=
  quadB ball ray ^ 2 - 4 * quadA ray * quadC ball ray

/-- The smaller root `(-b - sqrt(disc)) / (2a)`. -/
def smallerRoot (ball : Ball) (ray : Ray) : ℝ :=
  (-quadB ball ray - Real.sqrt (disc ball ray)) / (2 * quadA ray)

/-! ## Concrete inputs used by the witnesses and counterexamples -/

/-- A ball of the given centre and radius with the default material. -/
def ballAt (cx cy cz r : ℝ) : Ball := ⟨⟨cx, cy, cz⟩, Material.empty, r⟩

/-- The ray from the origin along `+z`. -/
def rayZ : Ray := ⟨⟨0, 0, 0⟩, ⟨0, 0, 1⟩⟩

/-- What the nearest-hit loop has established after scanning the list `l`. -/
def NearestInv (ray : Ray) (l : List Ball) (st : Nearest) : Prop :=
  ((∀ b ∈ l, (b.intersect ray 0).1 = false) ∧ st = ⟨-1, Ball.empty, Ray.empty⟩) ∨
  (0 ≤ st.closest_distance ∧
    ∃ pre post, l = pre ++ st.ball :: post ∧
      st.ball.intersect ray 0 = (true, st.closest_distance) ∧
      st.normal_ray =
        ⟨(ray.dir.scale st.closest_distance).add ray.pos,
          st.ball.getNormal ((ray.dir.scale st.closest_distance).add ray.pos)⟩ ∧
      (∀ b ∈ pre, (b.intersect ray 0).1 = true →
        st.closest_distance < (b.intersect ray 0).2) ∧
      (∀ b ∈ post, (b.intersect ray 0).1 = true →
        st.closest_distance ≤ (b.intersect ray 0).2))

/-- The camera built by `setupScene`. -/
def setupCamera : Camera := ⟨⟨0, 0, -2⟩, ⟨1, 0, 0⟩, 45⟩

/-- A unit ball at `(0, 0, 5)` with the given colour. -/
def colouredBall (r g b : ℝ) : Ball := ⟨⟨0, 0, 5⟩, ⟨⟨r, g, b⟩, 1⟩, 1⟩

/-- Two balls of equal geometry and different colour, and no light. -/
def tieScene : Scene := ⟨[colouredBall 1 0 0, colouredBall 0 0 1], [], setupCamera⟩

/-- A scene with no ball and the given lights. -/
def skyScene (lights : List Light) : Scene := ⟨[], lights, setupCamera⟩

/-- A white light of brightness 1 at the given position (constructor `Light(Vec3 pos)`). -/
def lightAt (x y z : ℝ) : Light := ⟨⟨x, y, z⟩, Vec3.splat 1, 1⟩

/-! ## Vocabulary of the background claim -/

/-- The alignment as the specification words it: `dot` of the normalized reverse view
direction with the normalized vector from the ray origin to the light. -/
def alignmentSpecified (ray : Ray) (light : Light) : ℝ :=
  ray.dir.neg.normalize.dotProduct (light.pos.sub ray.pos).normalize

/-- The alignment of the normalized view direction with the normalized vector from the
ray origin to the light. -/
def alignmentToLight (ray : Ray) (light : Light) : ℝ :=
  ray.dir.normalize.dotProduct (light.pos.sub ray.pos).normalize

/-- The quantity `m = max(0, max over lights of the alignment)`. -/
def maxAlignment (align : Ray → Light → ℝ) (ray : Ray) (lights : List Light) : ℝ :=
  (lights.map (align ray)).foldr max 0

/-- The glow `g`: `0` if `m ≤ 0.991`, otherwise `min(((m - 0.991)·130)^8, 1)`. -/
def glow (m : ℝ) : ℝ :=
  if m ≤ 0.991 then 0 else min (((m - 0.991) * 130) ^ 8) 1

/-- The uniform colour `min(0.05 + g, 1)` for a given notion of alignment. -/
def backgroundFormula (align : Ray → Light → ℝ) (ray : Ray) (scene : Scene) : Vec3 :=
  Vec3.splat (min (0.05 + glow (maxAlignment align ray scene.lights)) 1)

/-! ## Vocabulary of the illumination claim -/

/-- The outputs `(specular, diffuse)` as the specification describes them: sums, over
the lights that `checkShadow` does not report occluded at the point, of
`mirrored·normalize(light.position - point)` and `normal·normalize(light.position -
point)`. -/
def brightnessSum (ray : Ray) (scene : Scene) (normal_ray : Ray) (ball : Ball) : ℝ × ℝ :=
  let mirrored := ball.getMirrored ray.dir normal_ray.pos
  let lit := scene.lights.filter (fun l => !checkShadow scene l normal_ray.pos ball)
  ((lit.map (fun l => mirrored.dotProduct (l.pos.sub normal_ray.pos).normalize)).sum,
    (lit.map (fun l => normal_ray.dir.dotProduct (l.pos.sub normal_ray.pos).normalize)).sum)

/-- One unit ball at `(0, 0, 5)` and two lights behind the ray origin, on the `z` axis. -/
def twoLightScene : Scene :=
  ⟨[colouredBall 1 0 0], [lightAt 0 0 (-1), lightAt 0 0 (-2)], setupCamera⟩

/-- One unit ball at `(0, 0, 5)` and one light at `(0, 0, 1)`, between the origin and the
ball. -/
def farBallScene : Scene := ⟨[colouredBall 1 0 0], [lightAt 0 0 1], setupCamera⟩

/-- One light at `(0, 0, 10)`, the unit ball at `(0, 0, 5)` between it and the origin. -/
def occludedScene : Scene := ⟨[colouredBall 1 0 0], [lightAt 0 0 10], setupCamera⟩

/-- The incoming direction `(0, 3, 4)` used to exercise the reflection. -/
def slantDir : Vec3 := ⟨0, 3, 4⟩

/-! ## Vocabulary of the ray-generation claims -/

/-- The projection distance as the specification writes it: `h / tan(fov_radians/2)` with
`fov_radians = fov·π/180`. -/
def specifiedProjectionDistance (h : Int) (fov : ℝ) : ℝ :=
  (h : ℝ) / Real.tan (fov * Real.pi / 180 / 2)

/-- The pre-rotation pixel vector `(x + 0.5 - w/2, -(y + 0.5 - h/2), z)`, with `z` the
projection distance computed by the code. -/
def pixelVector (w h : Int) (fov : ℝ) (x y : ℕ) : Vec3 :=
  ⟨(x : ℝ) + 0.5 - (w : ℝ) / 2, -((y : ℝ) + 0.5 - (h : ℝ) / 2), projectionDistance h fov⟩

/-- The yaw rotation that `computeRays` applies to every pixel direction, for a given
camera: the angle is `vectorAngle(cam_dir.x, cam_dir.z)`. -/
def cameraYaw (camera : Camera) (v : Vec3) : Vec3 :=
  yawRotate (Real.cos (vectorAngle camera.dir.x camera.dir.z))
    (Real.sin (vectorAngle camera.dir.x camera.dir.z)) v

/-- The camera's normalized horizontal facing direction `(dx, 0, dz)/sqrt(dx² + dz²)`. -/
def horizontalFacing (camera : Camera) : Vec3 :=
  ⟨camera.dir.x / Real.sqrt (camera.dir.x ^ 2 + camera.dir.z ^ 2), 0,
    camera.dir.z / Real.sqrt (camera.dir.x ^ 2 + camera.dir.z ^ 2)⟩

/-- A camera at the origin facing `+z`, field of view `45`. -/
def forwardCamera : Camera := ⟨⟨0, 0, 0⟩, ⟨0, 0, 1⟩, 45⟩

/-! ## Vocabulary of the animation claim -/

/-- The light moved from `(x, y, z)` to `(x·cos θ + z·sin θ, y, -x·sin θ + z·cos θ)`:
a rotation by `θ` about the vertical axis through the origin. -/
def Light.rotateBy (θ : ℝ) (l : Light) : Light :=
  ⟨⟨l.pos.x * Real.cos θ + l.pos.z * Real.sin θ, l.pos.y,
      -l.pos.x * Real.sin θ + l.pos.z * Real.cos θ⟩, l.color, l.brightness⟩

/-- A scene with one ball and one light at `(100, 140, 200)`, the light of `setupScene`. -/
def orbitScene : Scene := ⟨[colouredBall 1 0 0], [lightAt 100 140 200], setupCamera⟩

/-! ## Vocabulary of the colour-range claim -/

/-- Every channel of the colour lies in `[0, 1]`. -/
def InUnitCube (c : Vec3) : Prop :=
  (0 ≤ c.x ∧ c.x ≤ 1) ∧ (0 ≤ c.y ∧ c.y ≤ 1) ∧ (0 ≤ c.z ∧ c.z ≤ 1)

/-- The conversion `(uint8_t)(v * 255.0f)` of `main` for `v ≥ 0`: truncation, then
reduction modulo `2^8`. -/
def channelByte (v : ℝ) : ℕ := ⌊v * 255⌋₊ % 256

/-- The packed pixel `0xRRGGBB` of `main`: the three bytes shifted by 16, 8 and 0 bits
and or-ed together (the bytes occupy disjoint bit ranges). -/
def packPixel (c : Vec3) : ℕ :=
  channelByte c.x * 65536 + channelByte c.y * 256 + channelByte c.z

/-! ## Basic facts of the vector algebra -/

theorem getLength_pos {v : Vec3} (h : v ≠ Vec3.zero) : 0 < v.getLength := by
  unfold Vec3.getLength
  apply Real.sqrt_pos.mpr
  have hne : v.x ≠ 0 ∨ v.y ≠ 0 ∨ v.z ≠ 0 := by
    by_contra hc
    push_neg at hc
    apply h
    ext <;> simp [Vec3.zero, hc.1, hc.2.1, hc.2.2]
  rcases hne with hx | hy | hz
  · have := mul_self_pos.mpr hx
    nlinarith [mul_self_nonneg v.y, mul_self_nonneg v.z]
  · have := mul_self_pos.mpr hy
    nlinarith [mul_self_nonneg v.x, mul_self_nonneg v.z]
  · have := mul_self_pos.mpr hz
    nlinarith [mul_self_nonneg v.x, mul_self_nonneg v.y]

theorem getLength_sq (v : Vec3) :
    v.getLength * v.getLength = v.x * v.x + v.y * v.y + v.z * v.z := by
  unfold Vec3.getLength
  apply Real.mul_self_sqrt
  nlinarith [mul_self_nonneg v.x, mul_self_nonneg v.y, mul_self_nonneg v.z]

theorem normalize_dot_self {v : Vec3} (h : v ≠ Vec3.zero) :
    v.normalize.dotProduct v.normalize = 1 := by
  have hl := getLength_pos h
  have hs := getLength_sq v
  simp only [Vec3.normalize, Vec3.dotProduct]
  field_simp
  nlinarith

theorem quadA_eq_one {ray : Ray} (h : ray.dir ≠ Vec3.zero) : quadA ray = 1 :=
  normalize_dot_self h

/-- The source function written with the vocabulary of the claims. -/
theorem intersect_unfold (ball : Ball) (ray : Ray) (distance : ℝ)
    (h : ray.dir ≠ Vec3.zero) :
    ball.intersect ray distance =
      if disc ball ray ≤ 0 then (false, distance)
      else if smallerRoot ball ray < 0 then (false, distance)
      else (true, smallerRoot ball ray) := by
  have ha : ray.dir.normalize.dotProduct ray.dir.normalize = 1 := normalize_dot_self h
  have hd : disc ball ray =
      2 * ray.dir.normalize.dotProduct (ray.pos.sub ball.pos) *
        (2 * ray.dir.normalize.dotProduct (ray.pos.sub ball.pos)) -
      4 * 1 * ((ray.pos.sub ball.pos).dotProduct (ray.pos.sub ball.pos) -
        ball.radius * ball.radius) := by
    simp only [disc, quadB, quadA, quadC, unitDir, offset, ha]
    ring
  simp only [Ball.intersect, ha]
  rw [← hd]
  by_cases hle : disc ball ray ≤ 0
  · simp [hle]
  · have hpos : 0 < Real.sqrt (disc ball ray) := Real.sqrt_pos.mpr (not_le.mp hle)
    have hroot : smallerRoot ball ray =
        (-(2 * ray.dir.normalize.dotProduct (ray.pos.sub ball.pos)) -
          Real.sqrt (disc ball ray)) / (2 * 1) := by
      simp only [smallerRoot, quadB, quadA, unitDir, offset, ha]
    rw [← hroot]
    have hnot : ¬ ((-(2 * ray.dir.normalize.dotProduct (ray.pos.sub ball.pos)) +
        Real.sqrt (disc ball ray)) / (2 * 1) < smallerRoot ball ray) := by
      rw [hroot]
      apply not_lt.mpr
      apply div_le_div_of_nonneg_right _ (by norm_num)
      linarith
    simp only [hle, hnot, if_false]

/-! ## Ray/sphere intersection -/

/-- C1: for a ray with non-zero direction, `Ball.intersect` returns true exactly when the
discriminant is positive and the smaller root is not negative; on true the written
distance is the smaller root; on false (in particular at exact tangency, `disc = 0`) the
distance out-parameter keeps the value it had before the call. -/
theorem intersect_characterisation (ball : Ball) (ray : Ray) (distance : ℝ)
    (h : ray.dir ≠ Vec3.zero) :
    ((ball.intersect ray distance).1 = true ↔
        (0 < disc ball ray ∧ 0 ≤ smallerRoot ball ray)) ∧
    ((ball.intersect ray distance).1 = true →
        (ball.intersect ray distance).2 = smallerRoot ball ray) ∧
    ((ball.intersect ray distance).1 = false →
        (ball.intersect ray distance).2 = distance) ∧
    (disc ball ray = 0 → ball.intersect ray distance = (false, distance)) := by
  rw [intersect_unfold ball ray distance h]
  by_cases hle : disc ball ray ≤ 0
  · simp only [hle, if_true]
    refine ⟨?_, ?_, ?_, ?_⟩
    · constructor
      · intro hf
        cases hf
      · intro hp
        exact absurd hp.1 (not_lt.mpr hle)
    · intro hf
      cases hf
    · intro _
      trivial
    · intro _
      trivial
  · by_cases hneg : smallerRoot ball ray < 0
    · simp only [hle, hneg, if_true, if_false]
      refine ⟨?_, ?_, ?_, ?_⟩
      · constructor
        · intro hf
          cases hf
        · intro hp
          exact absurd hp.2 (not_le.mpr hneg)
      · intro hf
        cases hf
      · intro _
        trivial
      · intro h0
        exact absurd (le_of_eq h0) hle
    · simp only [hle, hneg, if_false]
      refine ⟨?_, ?_, ?_, ?_⟩
      · constructor
        · intro _
          exact ⟨not_le.mp hle, not_lt.mp hneg⟩
        · intro _
          trivial
      · intro _
        trivial
      · intro hf
        cases hf
      · intro h0
        exact absurd (le_of_eq h0) hle

theorem rayZ_dir_ne_zero : rayZ.dir ≠ Vec3.zero := by
  intro hc
  have hz := congrArg Vec3.z hc
  simp [rayZ, Vec3.zero] at hz

theorem sqrt_four : Real.sqrt 4 = 2 := by
  rw [show (4 : ℝ) = 2 ^ 2 by norm_num]
  exact Real.sqrt_sq (by norm_num)

theorem rayZ_unitDir : unitDir rayZ = ⟨0, 0, 1⟩ := by
  simp [unitDir, rayZ, Vec3.normalize, Vec3.getLength]

/-- Evaluation of the quadratic for the ray along `+z` and a ball centred on the `z` axis. -/
theorem rayZ_quadratic (ball : Ball) (cz : ℝ) (hp : ball.pos = ⟨0, 0, cz⟩) :
    quadA rayZ = 1 ∧ quadB ball rayZ = -(2 * cz) ∧
      disc ball rayZ = 4 * ball.radius ^ 2 := by
  have hA : quadA rayZ = 1 := by
    rw [quadA, rayZ_unitDir]
    simp [Vec3.dotProduct]
  have hB : quadB ball rayZ = -(2 * cz) := by
    rw [quadB, rayZ_unitDir]
    simp [offset, hp, rayZ, Vec3.dotProduct, Vec3.sub]
  have hC : quadC ball rayZ = cz ^ 2 - ball.radius ^ 2 := by
    simp [quadC, offset, hp, rayZ, Vec3.dotProduct, Vec3.sub]
    ring
  refine ⟨hA, hB, ?_⟩
  rw [disc, hA, hB, hC]
  ring

/-- The ray along `+z` hits a ball centred on the positive `z` axis that does not contain
the origin in its interior, at the near pole. -/
theorem rayZ_hit (ball : Ball) (cz distance : ℝ) (hp : ball.pos = ⟨0, 0, cz⟩)
    (hr : 0 < ball.radius) (hcz : ball.radius ≤ cz) :
    ball.intersect rayZ distance = (true, cz - ball.radius) := by
  obtain ⟨hA, hB, hD⟩ := rayZ_quadratic ball cz hp
  have hS : Real.sqrt (disc ball rayZ) = 2 * ball.radius := by
    rw [hD, show 4 * ball.radius ^ 2 = (2 * ball.radius) ^ 2 by ring]
    exact Real.sqrt_sq (by linarith)
  have hroot : smallerRoot ball rayZ = cz - ball.radius := by
    rw [smallerRoot, hA, hB, hS]
    ring
  have hpos : ¬ disc ball rayZ ≤ 0 := by
    rw [hD]
    have := pow_pos hr 2
    linarith
  rw [intersect_unfold _ _ _ rayZ_dir_ne_zero, if_neg hpos, hroot,
    if_neg (by linarith)]

/-- Witness of C1: the ray from the origin along `+z` against the unit ball centred at
`(0, 0, 5)`; the call returns true and writes the distance `4`. -/
theorem intersect_characterisation_witness :
    rayZ.dir ≠ Vec3.zero ∧
      ((ballAt 0 0 5 1).intersect rayZ 0).1 = true ∧
      ((ballAt 0 0 5 1).intersect rayZ 0).2 = 4 := by
  obtain ⟨hA, hB, hD⟩ := rayZ_quadratic (ballAt 0 0 5 1) 5 rfl
  have hD4 : disc (ballAt 0 0 5 1) rayZ = 4 := by rw [hD]; norm_num [ballAt]
  have hroot : smallerRoot (ballAt 0 0 5 1) rayZ = 4 := by
    rw [smallerRoot, hA, hB, hD4, sqrt_four]
    norm_num
  have hC1 := intersect_characterisation (ballAt 0 0 5 1) rayZ 0 rayZ_dir_ne_zero
  have htrue : ((ballAt 0 0 5 1).intersect rayZ 0).1 = true :=
    hC1.1.mpr ⟨by rw [hD4]; norm_num, by rw [hroot]; norm_num⟩
  exact ⟨rayZ_dir_ne_zero, htrue, (hC1.2.1 htrue).trans hroot⟩

theorem ne_zero_of_getLength_one {v : Vec3} (h : v.getLength = 1) : v ≠ Vec3.zero := by
  intro hc
  rw [hc] at h
  simp [Vec3.getLength, Vec3.zero] at h

theorem rayZ_getLength : rayZ.dir.getLength = 1 := by
  simp [rayZ, Vec3.getLength]

/-- The roots of the quadratic when the ball is centred at the ray origin. -/
theorem centered_quadratic (ball : Ball) (ray : Ray) (hr : 0 < ball.radius)
    (hc : ball.pos = ray.pos) (hd : ray.dir ≠ Vec3.zero) :
    quadA ray = 1 ∧ quadB ball ray = 0 ∧ Real.sqrt (disc ball ray) = 2 * ball.radius := by
  have hA : quadA ray = 1 := quadA_eq_one hd
  have hB : quadB ball ray = 0 := by
    simp [quadB, offset, hc, Vec3.sub, Vec3.dotProduct]
  have hC : quadC ball ray = -ball.radius ^ 2 := by
    simp [quadC, offset, hc, Vec3.sub, Vec3.dotProduct]
  refine ⟨hA, hB, ?_⟩
  rw [disc, hA, hB, hC, show (0 : ℝ) ^ 2 - 4 * 1 * -ball.radius ^ 2 = (2 * ball.radius) ^ 2 by ring]
  exact Real.sqrt_sq (by linarith)

/-- C2 as stated fails: the unit ball centred at the origin of the ray along `+z` (radius
`1 > 0`, unit direction) is reported as a miss and no distance is written. -/
theorem intersect_centered_counterexample :
    (ballAt 0 0 0 1).pos = rayZ.pos ∧ 0 < (ballAt 0 0 0 1).radius ∧
      rayZ.dir.getLength = 1 ∧ (ballAt 0 0 0 1).intersect rayZ 0 = (false, 0) := by
  have hpos : (ballAt 0 0 0 1).pos = rayZ.pos := rfl
  have hr : 0 < (ballAt 0 0 0 1).radius := by simp [ballAt]
  refine ⟨hpos, hr, rayZ_getLength, ?_⟩
  obtain ⟨hA, hB, hS⟩ := centered_quadratic (ballAt 0 0 0 1) rayZ hr hpos rayZ_dir_ne_zero
  have hS2 : Real.sqrt (disc (ballAt 0 0 0 1) rayZ) = 2 := by
    rw [hS]; simp [ballAt]
  have hD : ¬ disc (ballAt 0 0 0 1) rayZ ≤ 0 := by
    intro hle
    rw [Real.sqrt_eq_zero_of_nonpos hle] at hS2
    norm_num at hS2
  have hroot : smallerRoot (ballAt 0 0 0 1) rayZ < 0 := by
    rw [smallerRoot, hA, hB, hS2]
    norm_num
  rw [intersect_unfold _ _ _ rayZ_dir_ne_zero, if_neg hD, if_pos hroot]

/-- C2 (amended): for a ball of radius `r > 0` centred at the ray origin and a unit-length
direction, `Ball.intersect` returns false and leaves the distance unchanged: the root it
selects is the smaller one, `-r`, which is negative; the other root is `r`. -/
theorem intersect_centered (ball : Ball) (ray : Ray) (distance : ℝ)
    (hr : 0 < ball.radius) (hc : ball.pos = ray.pos) (hu : ray.dir.getLength = 1) :
    ball.intersect ray distance = (false, distance) ∧
      smallerRoot ball ray = -ball.radius ∧
      (-quadB ball ray + Real.sqrt (disc ball ray)) / (2 * quadA ray) = ball.radius := by
  have hd := ne_zero_of_getLength_one hu
  obtain ⟨hA, hB, hS⟩ := centered_quadratic ball ray hr hc hd
  have hroot : smallerRoot ball ray = -ball.radius := by
    rw [smallerRoot, hA, hB, hS]
    ring
  have hD : ¬ disc ball ray ≤ 0 := by
    intro hle
    rw [Real.sqrt_eq_zero_of_nonpos hle] at hS
    linarith
  refine ⟨?_, hroot, ?_⟩
  · rw [intersect_unfold _ _ _ hd, if_neg hD, if_pos (by rw [hroot]; linarith)]
  · rw [hA, hB, hS]
    ring

/-- Witness of C2 (amended): the ball of radius `2` centred at the origin of the ray
along `+z`. -/
theorem intersect_centered_witness :
    (0 < (ballAt 0 0 0 2).radius ∧ (ballAt 0 0 0 2).pos = rayZ.pos ∧
      rayZ.dir.getLength = 1) ∧
    (ballAt 0 0 0 2).intersect rayZ 3 = (false, 3) :=
  ⟨⟨by simp [ballAt], rfl, rayZ_getLength⟩,
    (intersect_centered (ballAt 0 0 0 2) rayZ 3 (by simp [ballAt]) rfl rayZ_getLength).1⟩

theorem normalize_dotProduct (v w : Vec3) :
    v.normalize.dotProduct w = v.dotProduct w / v.getLength := by
  simp only [Vec3.normalize, Vec3.dotProduct]
  ring

/-- A ray whose direction does not point towards the centre never hits. -/
theorem intersect_false_of_quadB_nonneg (ball : Ball) (ray : Ray) (distance : ℝ)
    (hd : ray.dir ≠ Vec3.zero) (hb : 0 ≤ quadB ball ray) :
    ball.intersect ray distance = (false, distance) := by
  rw [intersect_unfold _ _ _ hd]
  by_cases hle : disc ball ray ≤ 0
  · rw [if_pos hle]
  · have hpos : 0 < Real.sqrt (disc ball ray) := Real.sqrt_pos.mpr (not_le.mp hle)
    have hroot : smallerRoot ball ray < 0 := by
      rw [smallerRoot, quadA_eq_one hd]
      apply div_neg_of_neg_of_pos
      · linarith
      · norm_num
    rw [if_neg hle, if_pos hroot]

/-- C3: a ray that starts strictly outside the ball (`|origin - center| > radius`) with a
non-zero direction pointing away from the centre (`dir·(origin - center) ≥ 0`) is a miss:
`Ball.intersect` returns false (and leaves the distance unchanged). -/
theorem intersect_pointing_away (ball : Ball) (ray : Ray) (distance : ℝ)
    (_hout : ball.radius < (offset ball ray).getLength)
    (hd : ray.dir ≠ Vec3.zero)
    (haway : 0 ≤ ray.dir.dotProduct (offset ball ray)) :
    (ball.intersect ray distance).1 = false ∧
      ball.intersect ray distance = (false, distance) := by
  have hb : 0 ≤ quadB ball ray := by
    rw [quadB, unitDir, normalize_dotProduct]
    have := getLength_pos hd
    positivity
  have hres := intersect_false_of_quadB_nonneg ball ray distance hd hb
  exact ⟨by rw [hres], hres⟩

/-- Witness of C3: the unit ball centred at `(0, 0, -5)` lies behind the ray from the
origin along `+z`. -/
theorem intersect_pointing_away_witness :
    ((ballAt 0 0 (-5) 1).radius < (offset (ballAt 0 0 (-5) 1) rayZ).getLength ∧
      rayZ.dir ≠ Vec3.zero ∧ 0 ≤ rayZ.dir.dotProduct (offset (ballAt 0 0 (-5) 1) rayZ)) ∧
    ((ballAt 0 0 (-5) 1).intersect rayZ 0).1 = false := by
  have hlen : (offset (ballAt 0 0 (-5) 1) rayZ).getLength = 5 := by
    simp only [offset, ballAt, rayZ, Vec3.sub, Vec3.getLength]
    rw [show ((0 : ℝ) - 0) * (0 - 0) + (0 - 0) * (0 - 0) + (0 - -5) * (0 - -5) = 5 ^ 2 by
      norm_num]
    exact Real.sqrt_sq (by norm_num)
  have hout : (ballAt 0 0 (-5) 1).radius < (offset (ballAt 0 0 (-5) 1) rayZ).getLength := by
    rw [hlen]; simp [ballAt]
  have haway : 0 ≤ rayZ.dir.dotProduct (offset (ballAt 0 0 (-5) 1) rayZ) := by
    simp [offset, ballAt, rayZ, Vec3.sub, Vec3.dotProduct]
  exact ⟨⟨hout, rayZ_dir_ne_zero, haway⟩,
    (intersect_pointing_away (ballAt 0 0 (-5) 1) rayZ 0 hout rayZ_dir_ne_zero haway).1⟩

/-! ## The nearest-hit scan of `trace` -/

/-- A reported hit never carries a negative distance. -/
theorem intersect_dist_nonneg (b : Ball) (ray : Ray) (distance : ℝ)
    (h : (b.intersect ray distance).1 = true) : 0 ≤ (b.intersect ray distance).2 := by
  unfold Ball.intersect at h ⊢
  simp only at h ⊢
  split_ifs at h ⊢ with h1 h2 h3 h3
  · exact not_lt.mp h3
  · exact not_lt.mp h3

theorem nearestStep_miss (ray : Ray) (st : Nearest) (b : Ball)
    (h : (b.intersect ray 0).1 = false) : nearestStep ray st b = st := by
  simp [nearestStep, h]

theorem nearestStep_take (ray : Ray) (st : Nearest) (b : Ball)
    (h : (b.intersect ray 0).1 = true)
    (hlt : (b.intersect ray 0).2 < st.closest_distance ∨ st.closest_distance < 0) :
    nearestStep ray st b =
      ⟨(b.intersect ray 0).2, b,
        ⟨(ray.dir.scale (b.intersect ray 0).2).add ray.pos,
          b.getNormal ((ray.dir.scale (b.intersect ray 0).2).add ray.pos)⟩⟩ := by
  simp [nearestStep, h, hlt]

theorem nearestStep_keep (ray : Ray) (st : Nearest) (b : Ball)
    (hlt : ¬ ((b.intersect ray 0).2 < st.closest_distance ∨ st.closest_distance < 0)) :
    nearestStep ray st b = st := by
  simp only [nearestStep, hlt, if_false, ite_self]

/-- The loop invariant is preserved by one iteration. -/
theorem nearestInv_step (ray : Ray) (l : List Ball) (st : Nearest) (b : Ball)
    (inv : NearestInv ray l st) : NearestInv ray (l ++ [b]) (nearestStep ray st b) := by
  cases hb : (b.intersect ray 0).1 with
  | false =>
    rw [nearestStep_miss ray st b hb]
    rcases inv with ⟨hnone, hst⟩ | ⟨h0, pre, post, hl, hhit, hn, hpre, hpost⟩
    · left
      refine ⟨?_, hst⟩
      intro b' hb'
      rcases List.mem_append.mp hb' with hm | hm
      · exact hnone b' hm
      · rw [List.mem_singleton.mp hm]
        exact hb
    · right
      refine ⟨h0, pre, post ++ [b], by rw [hl]; simp, hhit, hn, hpre, ?_⟩
      intro b' hb' hit
      rcases List.mem_append.mp hb' with hm | hm
      · exact hpost b' hm hit
      · rw [List.mem_singleton.mp hm, hb] at hit
        cases hit
  | true =>
    have hd0 : 0 ≤ (b.intersect ray 0).2 := intersect_dist_nonneg b ray 0 hb
    have hpair : b.intersect ray 0 = (true, (b.intersect ray 0).2) := by
      rw [← hb]
    rcases inv with ⟨hnone, hst⟩ | ⟨h0, pre, post, hl, hhit, hn, hpre, hpost⟩
    · rw [nearestStep_take ray st b hb (Or.inr (by rw [hst]; norm_num))]
      right
      refine ⟨hd0, l, [], rfl, hpair, rfl, ?_, ?_⟩
      · intro b' hb' hit
        rw [hnone b' hb'] at hit
        cases hit
      · intro b' hb'
        cases hb'
    · by_cases hlt : (b.intersect ray 0).2 < st.closest_distance
      · rw [nearestStep_take ray st b hb (Or.inl hlt)]
        right
        refine ⟨hd0, l, [], rfl, hpair, rfl, ?_, ?_⟩
        · intro b' hb' hit
          show (b.intersect ray 0).2 < (b'.intersect ray 0).2
          rw [hl] at hb'
          rcases List.mem_append.mp hb' with hm | hm
          · exact lt_trans hlt (hpre b' hm hit)
          · rcases List.mem_cons.mp hm with hm | hm
            · rw [hm, hhit]
              exact hlt
            · exact lt_of_lt_of_le hlt (hpost b' hm hit)
        · intro b' hb'
          cases hb'
      · have hkeep : ¬ ((b.intersect ray 0).2 < st.closest_distance ∨
            st.closest_distance < 0) := by
          intro hc
          rcases hc with hc | hc
          · exact hlt hc
          · exact absurd hc (not_lt.mpr h0)
        rw [nearestStep_keep ray st b hkeep]
        right
        refine ⟨h0, pre, post ++ [b], by rw [hl]; simp, hhit, hn, hpre, ?_⟩
        intro b' hb' hit
        rcases List.mem_append.mp hb' with hm | hm
        · exact hpost b' hm hit
        · rw [List.mem_singleton.mp hm]
          exact not_lt.mp hlt

/-- The loop invariant holds when the loop over `l` ends. -/
theorem nearestInv_foldl (ray : Ray) (l : List Ball) :
    NearestInv ray l (l.foldl (nearestStep ray) ⟨-1, Ball.empty, Ray.empty⟩) := by
  induction l using List.reverseRecOn with
  | nil =>
    left
    exact ⟨fun b hb => (by cases hb), rfl⟩
  | append_singleton l b ih =>
    rw [List.foldl_append]
    exact nearestInv_step ray l _ b ih

/-- C4: when no ball of the scene is intersected `trace` returns
`computeBackground(ray, scene)`; when at least one is, the nearest-hit scan leaves a
non-negative `closest_distance` (so the background branch is not taken, also at distance
`0`) and selects a ball of the list whose `intersect` distance is `closest_distance`,
which is minimal over all intersected balls, strictly smaller than that of every
intersected ball earlier in the list (ties go to the first), together with the hit point
and normal of that ball. -/
theorem trace_nearest_hit (ray : Ray) (scene : Scene) (bounces : Int) :
    ((∀ b ∈ scene.balls, (b.intersect ray 0).1 = false) →
        trace ray scene bounces = computeBackground ray scene) ∧
    ((∃ b ∈ scene.balls, (b.intersect ray 0).1 = true) →
        ¬ (nearestHit ray scene).closest_distance < 0 ∧
        (∀ b ∈ scene.balls, (b.intersect ray 0).1 = true →
          (nearestHit ray scene).closest_distance ≤ (b.intersect ray 0).2) ∧
        ∃ pre post, scene.balls = pre ++ (nearestHit ray scene).ball :: post ∧
          (nearestHit ray scene).ball.intersect ray 0 =
            (true, (nearestHit ray scene).closest_distance) ∧
          (∀ b ∈ pre, (b.intersect ray 0).1 = true →
            (nearestHit ray scene).closest_distance < (b.intersect ray 0).2) ∧
          (nearestHit ray scene).normal_ray =
            ⟨(ray.dir.scale (nearestHit ray scene).closest_distance).add ray.pos,
              (nearestHit ray scene).ball.getNormal
                ((ray.dir.scale (nearestHit ray scene).closest_distance).add ray.pos)⟩) := by
  have inv := nearestInv_foldl ray scene.balls
  change NearestInv ray scene.balls (nearestHit ray scene) at inv
  constructor
  · intro hnone
    rcases inv with ⟨_, hst⟩ | ⟨_, pre, post, hl, hhit, _, _, _⟩
    · rw [trace, hst]
      norm_num
    · have hmem : (nearestHit ray scene).ball ∈ scene.balls := by
        rw [hl]; simp
      have hf := hnone _ hmem
      rw [hhit] at hf
      cases hf
  · rintro ⟨b, hb, hit⟩
    rcases inv with ⟨hnone, _⟩ | ⟨h0, pre, post, hl, hhit, hn, hpre, hpost⟩
    · rw [hnone b hb] at hit
      cases hit
    · refine ⟨not_lt.mpr h0, ?_, pre, post, hl, hhit, hpre, hn⟩
      intro b' hb' hit'
      rw [hl] at hb'
      rcases List.mem_append.mp hb' with hm | hm
      · exact le_of_lt (hpre b' hm hit')
      · rcases List.mem_cons.mp hm with hm | hm
        · rw [hm, hhit]
        · exact hpost b' hm hit'

theorem colouredBall_hit (r g b distance : ℝ) :
    (colouredBall r g b).intersect rayZ distance = (true, 4) := by
  rw [rayZ_hit (colouredBall r g b) 5 distance rfl (by simp [colouredBall])
    (by simp [colouredBall])]
  norm_num [colouredBall]

/-- Witness of C4: two balls of equal geometry are both hit at distance `4` by the ray
along `+z`; the scan selects the first of the list, with `closest_distance = 4`. -/
theorem trace_nearest_hit_witness :
    (∃ b ∈ tieScene.balls, (b.intersect rayZ 0).1 = true) ∧
      (nearestHit rayZ tieScene).ball = colouredBall 1 0 0 ∧
      (nearestHit rayZ tieScene).closest_distance = 4 := by
  have hex : ∃ b ∈ tieScene.balls, (b.intersect rayZ 0).1 = true :=
    ⟨colouredBall 1 0 0, by simp [tieScene], by rw [colouredBall_hit]⟩
  obtain ⟨_, _, pre, post, hl, hhit, hpre, _⟩ := (trace_nearest_hit rayZ tieScene 0).2 hex
  have hall : ∀ b ∈ tieScene.balls, b.intersect rayZ 0 = (true, 4) := by
    intro b hb
    simp only [tieScene, List.mem_cons, List.mem_singleton, List.not_mem_nil, or_false] at hb
    rcases hb with hb | hb <;> rw [hb] <;> exact colouredBall_hit _ _ _ 0
  have hmem : (nearestHit rayZ tieScene).ball ∈ tieScene.balls := by
    rw [hl]; simp
  have hd : (nearestHit rayZ tieScene).closest_distance = 4 := by
    have h4 := hall _ hmem
    rw [hhit] at h4
    exact (Prod.mk.inj h4).2
  refine ⟨hex, ?_, hd⟩
  cases pre with
  | nil =>
    have hhead := congrArg List.head? hl
    simp [tieScene] at hhead
    exact hhead.symm
  | cons p pre' =>
    have hpm : p ∈ tieScene.balls := by
      rw [hl]; simp
    have hlt := hpre p (by simp) (by rw [hall p hpm])
    rw [hall p hpm, hd] at hlt
    exact absurd hlt (lt_irrefl _)

/-! ## Local colour and recursion of `trace` -/

theorem max_pow_fifteen (s : ℝ) : max (s ^ 15) 0 = (max s 0) ^ 15 := by
  rcases le_or_lt 0 s with hs | hs
  · rw [max_eq_left (pow_nonneg hs 15), max_eq_left hs]
  · have hodd : Odd 15 := by decide
    rw [max_eq_right (le_of_lt (hodd.pow_neg hs)), max_eq_right (le_of_lt hs)]
    norm_num

/-- After a scan that met a hit, the background branch is not taken and the stored normal
ray starts at the hit point. -/
theorem nearestHit_of_hit (ray : Ray) (scene : Scene)
    (hhit : ∃ b ∈ scene.balls, (b.intersect ray 0).1 = true) :
    ¬ (nearestHit ray scene).closest_distance < 0 ∧
      (nearestHit ray scene).normal_ray.pos =
        (ray.dir.scale (nearestHit ray scene).closest_distance).add ray.pos := by
  have inv := nearestInv_foldl ray scene.balls
  change NearestInv ray scene.balls (nearestHit ray scene) at inv
  obtain ⟨b, hb, hit⟩ := hhit
  rcases inv with ⟨hnone, _⟩ | ⟨h0, _, _, _, _, hn, _, _⟩
  · rw [hnone b hb] at hit
    cases hit
  · exact ⟨not_lt.mpr h0, by rw [hn]⟩

/-- C5: for a ray that hits a ball, with `base = 0.25 × material colour` of the selected
ball and `(specular, diffuse)` the outputs of `computeBrightness`, the local colour of
`trace` is `base + base·max(diffuse,0) + base·(max(specular,0))^15` (the source's
`max(specular^15, 0)` agrees with it for every real `specular`); `trace` returns
`0.3·local + 0.6·trace(reflected, scene, bounces+1)` when `bounces < 10` and exactly
`local` when `bounces ≥ 10`, where `reflected` starts at the hit point with direction
`getMirrored(ray.dir, hitPoint)`. -/
theorem trace_hit_color (ray : Ray) (scene : Scene) (bounces : Int)
    (hhit : ∃ b ∈ scene.balls, (b.intersect ray 0).1 = true) :
    let st := nearestHit ray scene
    let base := st.ball.material.color.scale 0.25
    let hitPoint := (ray.dir.scale st.closest_distance).add ray.pos
    let sd := computeBrightness ray scene ⟨hitPoint, st.ball.getNormal hitPoint⟩ st.ball
    let loc := (base.add (base.scale (max sd.2 0))).add (base.scale ((max sd.1 0) ^ 15))
    let reflected : Ray := ⟨hitPoint, st.ball.getMirrored ray.dir hitPoint⟩
    (∀ s : ℝ, max (s ^ 15) 0 = (max s 0) ^ 15) ∧
    localColor ray scene st = loc ∧
    (bounces < 10 →
      trace ray scene bounces =
        (loc.scale 0.3).add ((trace reflected scene (bounces + 1)).scale 0.6)) ∧
    (10 ≤ bounces → trace ray scene bounces = loc) := by
  intro st base hitPoint sd loc reflected
  have inv := nearestInv_foldl ray scene.balls
  change NearestInv ray scene.balls st at inv
  obtain ⟨b, hb, hit⟩ := hhit
  rcases inv with ⟨hnone, _⟩ | ⟨h0, _, _, _, _, hn, _, _⟩
  · rw [hnone b hb] at hit
    cases hit
  · have hnr : st.normal_ray = ⟨hitPoint, st.ball.getNormal hitPoint⟩ := hn
    have hloc : localColor ray scene st = loc := by
      simp only [localColor, hnr, max_pow_fifteen, loc, sd, base]
    have hrefl : reflectedRay ray st = reflected := by
      simp only [reflectedRay, hnr, reflected]
    have hge : ¬ st.closest_distance < 0 := not_lt.mpr h0
    refine ⟨max_pow_fifteen, hloc, ?_, ?_⟩
    · intro hlt
      rw [trace]
      simp only [hlt, if_true]
      rw [if_neg hge, hloc, hrefl]
    · intro hle
      rw [trace]
      simp only [not_lt.mpr hle, if_false]
      rw [if_neg hge, hloc]

theorem tieScene_hit : ∃ b ∈ tieScene.balls, (b.intersect rayZ 0).1 = true :=
  ⟨colouredBall 1 0 0, by simp [tieScene], by rw [colouredBall_hit]⟩

theorem nearestHit_tieScene_ball : (nearestHit rayZ tieScene).ball = colouredBall 1 0 0 := by
  simp only [nearestHit, tieScene, List.foldl, nearestStep, colouredBall_hit]
  norm_num

/-- Witness of C5: in the scene of two tied balls and no light, the ray along `+z` traced
at `bounces = 10` returns the local colour `0.25 × (1, 0, 0)` of the first ball. -/
theorem trace_hit_color_witness :
    (∃ b ∈ tieScene.balls, (b.intersect rayZ 0).1 = true) ∧
      trace rayZ tieScene 10 = ⟨0.25, 0, 0⟩ := by
  refine ⟨tieScene_hit, ?_⟩
  rw [(trace_hit_color rayZ tieScene 10 tieScene_hit).2.2.2 (le_refl 10),
    nearestHit_tieScene_ball]
  simp [computeBrightness, tieScene, colouredBall, Vec3.scale, Vec3.add]

/-! ## Recursion depth of `trace` -/

theorem traceLogged_miss (ray : Ray) (scene : Scene) (bounces : Int)
    (h : (nearestHit ray scene).closest_distance < 0) :
    traceLogged ray scene bounces = (computeBackground ray scene, []) := by
  rw [traceLogged]
  simp only [h, if_true]

theorem traceLogged_stop (ray : Ray) (scene : Scene) (bounces : Int)
    (h : ¬ (nearestHit ray scene).closest_distance < 0) (hb : ¬ bounces < 10) :
    traceLogged ray scene bounces = (localColor ray scene (nearestHit ray scene), []) := by
  rw [traceLogged]
  simp only [h, hb, if_false]

theorem traceLogged_recurse (ray : Ray) (scene : Scene) (bounces : Int)
    (h : ¬ (nearestHit ray scene).closest_distance < 0) (hb : bounces < 10) :
    traceLogged ray scene bounces =
      (((localColor ray scene (nearestHit ray scene)).scale 0.3).add
          ((traceLogged (reflectedRay ray (nearestHit ray scene)) scene (bounces + 1)).1.scale
            0.6),
        (bounces + 1) ::
          (traceLogged (reflectedRay ray (nearestHit ray scene)) scene (bounces + 1)).2) := by
  rw [traceLogged]
  simp only [h, hb, if_false, if_true]

theorem trace_miss (ray : Ray) (scene : Scene) (bounces : Int)
    (h : (nearestHit ray scene).closest_distance < 0) :
    trace ray scene bounces = computeBackground ray scene := by
  rw [trace]
  simp only [h, if_true]

theorem trace_stop (ray : Ray) (scene : Scene) (bounces : Int)
    (h : ¬ (nearestHit ray scene).closest_distance < 0) (hb : ¬ bounces < 10) :
    trace ray scene bounces = localColor ray scene (nearestHit ray scene) := by
  rw [trace]
  simp only [h, hb, if_false]

theorem trace_recurse (ray : Ray) (scene : Scene) (bounces : Int)
    (h : ¬ (nearestHit ray scene).closest_distance < 0) (hb : bounces < 10) :
    trace ray scene bounces =
      ((localColor ray scene (nearestHit ray scene)).scale 0.3).add
        ((trace (reflectedRay ray (nearestHit ray scene)) scene (bounces + 1)).scale 0.6) := by
  rw [trace]
  simp only [h, hb, if_false, if_true]

theorem depths_cons (bounces : Int) (n : ℕ) :
    (bounces + 1) :: (List.range n).map (fun i : ℕ => bounces + 1 + 1 + (i : Int)) =
      (List.range (n + 1)).map (fun i : ℕ => bounces + 1 + (i : Int)) := by
  rw [List.range_succ_eq_map, List.map_cons, List.map_map]
  congr 1
  · simp
  · apply List.map_congr_left
    intro i _
    simp only [Function.comp, Nat.cast_succ]
    ring

/-- The logged run agrees with `trace`, and its log has the shape
`bounces + 1, bounces + 2, ...` with at most `max (10 - bounces) 0` entries. -/
theorem traceLogged_spec (scene : Scene) (n : ℕ) :
    ∀ (ray : Ray) (bounces : Int), (10 - bounces).toNat = n →
      (traceLogged ray scene bounces).1 = trace ray scene bounces ∧
      (traceLogged ray scene bounces).2.length ≤ n ∧
      (traceLogged ray scene bounces).2 =
        (List.range (traceLogged ray scene bounces).2.length).map
          (fun i : ℕ => bounces + 1 + (i : Int)) := by
  induction n with
  | zero =>
    intro ray bounces hn
    have hb : ¬ bounces < 10 := by omega
    by_cases hc : (nearestHit ray scene).closest_distance < 0
    · rw [traceLogged_miss ray scene bounces hc, trace_miss ray scene bounces hc]
      simp
    · rw [traceLogged_stop ray scene bounces hc hb, trace_stop ray scene bounces hc hb]
      simp
  | succ n ih =>
    intro ray bounces hn
    have hb : bounces < 10 := by omega
    by_cases hc : (nearestHit ray scene).closest_distance < 0
    · rw [traceLogged_miss ray scene bounces hc, trace_miss ray scene bounces hc]
      simp
    · obtain ⟨h1, h2, h3⟩ :=
        ih (reflectedRay ray (nearestHit ray scene)) (bounces + 1) (by omega)
      rw [traceLogged_recurse ray scene bounces hc hb, trace_recurse ray scene bounces hc hb]
      refine ⟨by rw [h1], by simpa using h2, ?_⟩
      simp only [List.length_cons]
      rw [← depths_cons, ← h3]

/-- C6: `trace` is a total function (its recursion is accepted with the measure
`10 - bounces`, without fuel), and a call `trace(ray, scene, d)` makes at most
`max(10 - d, 0)` nested recursive calls, whatever the scene: the `k`-th of them carries
depth `d + k`, every logged depth lies in `d+1 .. 10`, a call with `d ≥ 10` does not
recurse, and a call with `d = 0` makes at most 10. -/
theorem trace_recursion_bound (ray : Ray) (scene : Scene) (bounces : Int) :
    (traceLogged ray scene bounces).1 = trace ray scene bounces ∧
    (traceLogged ray scene bounces).2.length ≤ (10 - bounces).toNat ∧
    (traceLogged ray scene bounces).2 =
      (List.range (traceLogged ray scene bounces).2.length).map
        (fun i : ℕ => bounces + 1 + (i : Int)) ∧
    (∀ k ∈ (traceLogged ray scene bounces).2, bounces < k ∧ k ≤ 10) ∧
    ((traceLogged ray scene bounces).2 ≠ [] → bounces < 10) ∧
    (traceLogged ray scene 0).2.length ≤ 10 := by
  obtain ⟨h1, h2, h3⟩ := traceLogged_spec scene _ ray bounces rfl
  refine ⟨h1, h2, h3, ?_, ?_, ?_⟩
  · intro k hk
    rw [h3] at hk
    obtain ⟨i, hi, rfl⟩ := List.mem_map.mp hk
    have hi2 := List.mem_range.mp hi
    omega
  · intro hne
    have hlen : 0 < (traceLogged ray scene bounces).2.length := List.length_pos.mpr hne
    omega
  · exact (traceLogged_spec scene _ ray 0 rfl).2.1

/-- Witness of C6: in the scene of two tied balls the ray along `+z` hits, so the call at
depth 0 recurses (its first logged call carries depth 1), and the log has at most 10
entries. -/
theorem trace_recursion_bound_witness :
    (traceLogged rayZ tieScene 0).2.head? = some 1 ∧
      (traceLogged rayZ tieScene 0).2.length ≤ 10 := by
  have hge : ¬ (nearestHit rayZ tieScene).closest_distance < 0 :=
    (nearestHit_of_hit rayZ tieScene tieScene_hit).1
  refine ⟨?_, (trace_recursion_bound rayZ tieScene 0).2.2.2.2.2⟩
  rw [traceLogged_recurse rayZ tieScene 0 hge (by norm_num)]
  rfl

/-! ## Background shading -/

theorem nearestHit_of_miss (ray : Ray) (scene : Scene)
    (hmiss : ∀ b ∈ scene.balls, (b.intersect ray 0).1 = false) :
    (nearestHit ray scene).closest_distance < 0 := by
  have inv := nearestInv_foldl ray scene.balls
  change NearestInv ray scene.balls (nearestHit ray scene) at inv
  rcases inv with ⟨_, hst⟩ | ⟨_, pre, post, hl, hhit, _, _, _⟩
  · rw [hst]
    norm_num
  · have hmem : (nearestHit ray scene).ball ∈ scene.balls := by
      rw [hl]; simp
    have hf := hmiss _ hmem
    rw [hhit] at hf
    cases hf

/-- The background colour is uniform and lies between the ambient floor and `1`. -/
theorem computeBackground_range (ray : Ray) (scene : Scene) :
    ∃ v : ℝ, computeBackground ray scene = Vec3.splat v ∧ 0.05 ≤ v ∧ v ≤ 1 := by
  refine ⟨_, rfl, ?_, min_le_right _ _⟩
  apply le_min _ (by norm_num)
  simp only [Vec3.splat]
  split_ifs
  · have h8 : (0 : ℝ) ≤ ((List.foldl
        (fun (dot : ℝ) (light : Light) =>
          if (ray.pos.sub light.pos).normalize.dotProduct ray.dir.normalize.neg > dot then
            (ray.pos.sub light.pos).normalize.dotProduct ray.dir.normalize.neg
          else dot) 0 scene.lights - 0.991) * 130) ^ 8 := by
      apply Even.pow_nonneg
      decide
    have hmin := le_min h8 (zero_le_one)
    linarith
  · norm_num

/-- C7: a ray with non-zero direction that intersects no ball of the scene (any number of
lights, none included) is coloured by `trace` with three equal channels, each at least
`0.05` and at most `1`. -/
theorem trace_miss_color (ray : Ray) (scene : Scene) (bounces : Int)
    (_hdir : ray.dir ≠ Vec3.zero)
    (hmiss : ∀ b ∈ scene.balls, (b.intersect ray 0).1 = false) :
    (trace ray scene bounces).x = (trace ray scene bounces).y ∧
      (trace ray scene bounces).y = (trace ray scene bounces).z ∧
      0.05 ≤ (trace ray scene bounces).x ∧ (trace ray scene bounces).x ≤ 1 := by
  rw [trace_miss ray scene bounces (nearestHit_of_miss ray scene hmiss)]
  obtain ⟨v, hv, hlo, hhi⟩ := computeBackground_range ray scene
  rw [hv]
  exact ⟨rfl, rfl, hlo, hhi⟩

/-- Witness of C7: the ray along `+z` in a scene with no ball and no light. -/
theorem trace_miss_color_witness :
    (rayZ.dir ≠ Vec3.zero ∧
      ∀ b ∈ (skyScene []).balls, (b.intersect rayZ 0).1 = false) ∧
    (0.05 ≤ (trace rayZ (skyScene []) 0).x ∧ (trace rayZ (skyScene []) 0).x ≤ 1) :=
  ⟨⟨rayZ_dir_ne_zero, fun b hb => (by simp [skyScene] at hb)⟩,
    (trace_miss_color rayZ (skyScene []) 0 rayZ_dir_ne_zero
      (fun b hb => (by simp [skyScene] at hb))).2.2⟩

theorem normalize_axis_z (c : ℝ) : Vec3.normalize ⟨0, 0, c⟩ = ⟨0, 0, c / |c|⟩ := by
  have hlen : Vec3.getLength ⟨0, 0, c⟩ = |c| := by
    simp only [Vec3.getLength]
    rw [show (0 : ℝ) * 0 + 0 * 0 + c * c = c * c by ring]
    exact Real.sqrt_mul_self_eq_abs c
  simp only [Vec3.normalize, hlen]
  ext <;> simp
  ring

theorem getLength_sub_comm (a b : Vec3) : (a.sub b).getLength = (b.sub a).getLength := by
  simp only [Vec3.getLength, Vec3.sub]
  congr 1
  ring

/-- The per-light quantity `dot_product` of `computeBackground`. -/
theorem background_dot_product (ray : Ray) (light : Light) :
    (ray.pos.sub light.pos).normalize.dotProduct ray.dir.normalize.neg =
      alignmentToLight ray light := by
  have hlen := getLength_sub_comm ray.pos light.pos
  simp only [alignmentToLight, Vec3.normalize, Vec3.dotProduct, Vec3.neg, hlen]
  simp only [Vec3.sub]
  ring

theorem foldr_max_init (c x : ℝ) (l : List ℝ) :
    l.foldr max (max c x) = max x (l.foldr max c) := by
  induction l with
  | nil => exact max_comm c x
  | cons a l ih =>
    simp only [List.foldr_cons, ih]
    exact max_left_comm a x _

/-- The running maximum kept by the loop of `computeBackground`. -/
theorem foldl_running_max (f : Light → ℝ) (lights : List Light) (init : ℝ) :
    lights.foldl (fun (dot : ℝ) (light : Light) => if f light > dot then f light else dot)
      init = (lights.map f).foldr max init := by
  induction lights generalizing init with
  | nil => rfl
  | cons a l ih =>
    simp only [List.foldl_cons, List.map_cons, List.foldr_cons]
    rw [ih, ← foldr_max_init]
    congr 1
    by_cases h : f a > init
    · rw [if_pos h, max_eq_right (le_of_lt h)]
    · rw [if_neg h, max_eq_left (not_lt.mp h)]

/-- The source function written with the vocabulary of the claim. -/
theorem computeBackground_eq (ray : Ray) (scene : Scene) :
    computeBackground ray scene = backgroundFormula alignmentToLight ray scene := by
  simp only [computeBackground, backgroundFormula, maxAlignment, glow, background_dot_product]
  rw [foldl_running_max (alignmentToLight ray) scene.lights 0]
  by_cases h : (scene.lights.map (alignmentToLight ray)).foldr max 0 ≤ 0.991
  · rw [if_pos h, if_neg (not_lt.mpr h)]
    simp [Vec3.splat]
  · rw [if_neg h, if_pos (not_le.mp h)]
    simp [Vec3.splat]

theorem lightAhead_distinct : ∀ l ∈ (skyScene [lightAt 0 0 1]).lights, l.pos ≠ rayZ.pos := by
  intro l hl hc
  simp only [skyScene, List.mem_singleton] at hl
  rw [hl] at hc
  have hz := congrArg Vec3.z hc
  simp [lightAt, rayZ] at hz

theorem computeBackground_lightAhead :
    computeBackground rayZ (skyScene [lightAt 0 0 1]) = Vec3.splat 1 := by
  simp only [computeBackground, skyScene, lightAt, rayZ, List.foldl, Vec3.sub, Vec3.neg,
    Vec3.splat, sub_zero, zero_sub, normalize_axis_z, Vec3.dotProduct]
  norm_num

/-- C8 as stated fails: for the ray from the origin along `+z` and one light at
`(0, 0, 1)`, straight ahead, the code returns the saturated colour `1`, while the formula
with the alignment of the reverse view direction against the origin-to-light vector
gives the ambient `0.05`. -/
theorem computeBackground_counterexample :
    rayZ.dir ≠ Vec3.zero ∧ (∀ l ∈ (skyScene [lightAt 0 0 1]).lights, l.pos ≠ rayZ.pos) ∧
      computeBackground rayZ (skyScene [lightAt 0 0 1]) = Vec3.splat 1 ∧
      backgroundFormula alignmentSpecified rayZ (skyScene [lightAt 0 0 1]) =
        Vec3.splat 0.05 ∧
      computeBackground rayZ (skyScene [lightAt 0 0 1]) ≠
        backgroundFormula alignmentSpecified rayZ (skyScene [lightAt 0 0 1]) := by
  have hspec : backgroundFormula alignmentSpecified rayZ (skyScene [lightAt 0 0 1]) =
      Vec3.splat 0.05 := by
    simp only [backgroundFormula, maxAlignment, alignmentSpecified, glow, skyScene, lightAt,
      rayZ, List.map, List.foldr, Vec3.sub, Vec3.neg, sub_zero, neg_zero, normalize_axis_z,
      Vec3.dotProduct]
    norm_num
  refine ⟨rayZ_dir_ne_zero, lightAhead_distinct, computeBackground_lightAhead, hspec, ?_⟩
  rw [computeBackground_lightAhead, hspec]
  intro hc
  have hx := congrArg Vec3.x hc
  norm_num [Vec3.splat] at hx

/-- C8 (amended): for a ray with non-zero direction and lights all distinct from the ray
origin, `computeBackground` returns the uniform colour `min(0.05 + g, 1)` where
`m = max(0, max over lights of dot(normalize(ray.dir), normalize(light.position -
ray.origin)))`, `g = 0` if `m ≤ 0.991` and `g = min(((m - 0.991)·130)^8, 1)` otherwise:
the alignment is taken between the view direction and the vector from the ray origin to
the light. -/
theorem computeBackground_formula (ray : Ray) (scene : Scene)
    (_hdir : ray.dir ≠ Vec3.zero) (_hlights : ∀ l ∈ scene.lights, l.pos ≠ ray.pos) :
    computeBackground ray scene = backgroundFormula alignmentToLight ray scene :=
  computeBackground_eq ray scene

/-- Witness of C8 (amended): the ray along `+z` with one light straight ahead at
`(0, 0, 1)`; the formula evaluates to the saturated colour `1`. -/
theorem computeBackground_formula_witness :
    (rayZ.dir ≠ Vec3.zero ∧ ∀ l ∈ (skyScene [lightAt 0 0 1]).lights, l.pos ≠ rayZ.pos) ∧
      backgroundFormula alignmentToLight rayZ (skyScene [lightAt 0 0 1]) = Vec3.splat 1 :=
  ⟨⟨rayZ_dir_ne_zero, lightAhead_distinct⟩,
    (computeBackground_formula rayZ (skyScene [lightAt 0 0 1]) rayZ_dir_ne_zero
      lightAhead_distinct).symm.trans computeBackground_lightAhead⟩

/-! ## Shadow test -/

theorem checkShadowLoop_iff (light : Light) (pos : Vec3) (balls : List Ball) :
    checkShadowLoop light pos balls = true ↔
      ∃ b ∈ balls, (b.intersect ⟨pos, light.pos.sub pos⟩ 0).1 = true := by
  induction balls with
  | nil => simp [checkShadowLoop]
  | cons b rest ih =>
    simp only [checkShadowLoop, List.mem_cons, exists_eq_or_imp]
    by_cases h : (b.intersect ⟨pos, light.pos.sub pos⟩ 0).1 = true
    · simp [h]
    · simp [h, ih]

/-- C10: for a point different from the light position, `checkShadow` returns true
exactly when at least one ball of the scene's list is intersected by the ray from the
point with direction `light.position - point`; the hit distance is not compared with
anything, so a ball hit at a distance larger than that of the light makes it return true
as well. -/
theorem checkShadow_iff_any_hit (scene : Scene) (light : Light) (pos : Vec3) (ball : Ball)
    (_hpos : pos ≠ light.pos) :
    (checkShadow scene light pos ball = true ↔
      ∃ b ∈ scene.balls, (b.intersect ⟨pos, light.pos.sub pos⟩ 0).1 = true) ∧
    (∀ b ∈ scene.balls, ∀ t : ℝ,
      b.intersect ⟨pos, light.pos.sub pos⟩ 0 = (true, t) →
      (light.pos.sub pos).getLength < t →
      checkShadow scene light pos ball = true) := by
  have hiff := checkShadowLoop_iff light pos scene.balls
  refine ⟨hiff, ?_⟩
  intro b hb t ht _
  exact hiff.mpr ⟨b, hb, by rw [ht]⟩

/-- Witness of C10: from the origin, with the light at `(0, 0, 1)` (distance 1), the ball
at `(0, 0, 5)` is hit at distance 4, beyond the light, and `checkShadow` returns true. -/
theorem checkShadow_iff_any_hit_witness :
    (⟨0, 0, 0⟩ : Vec3) ≠ (lightAt 0 0 1).pos ∧
      ((lightAt 0 0 1).pos.sub ⟨0, 0, 0⟩).getLength < 4 ∧
      (colouredBall 1 0 0).intersect ⟨⟨0, 0, 0⟩, (lightAt 0 0 1).pos.sub ⟨0, 0, 0⟩⟩ 0 =
        (true, 4) ∧
      checkShadow farBallScene (lightAt 0 0 1) ⟨0, 0, 0⟩ (colouredBall 1 0 0) = true := by
  have hne : (⟨0, 0, 0⟩ : Vec3) ≠ (lightAt 0 0 1).pos := by
    intro hc
    have hz := congrArg Vec3.z hc
    simp [lightAt] at hz
  have hray : (⟨⟨0, 0, 0⟩, (lightAt 0 0 1).pos.sub ⟨0, 0, 0⟩⟩ : Ray) = rayZ := by
    simp [lightAt, rayZ, Vec3.sub]
  have hlen : ((lightAt 0 0 1).pos.sub ⟨0, 0, 0⟩).getLength < 4 := by
    simp [lightAt, Vec3.sub, Vec3.getLength]
  have hhit : (colouredBall 1 0 0).intersect
      ⟨⟨0, 0, 0⟩, (lightAt 0 0 1).pos.sub ⟨0, 0, 0⟩⟩ 0 = (true, 4) := by
    rw [hray]
    exact colouredBall_hit 1 0 0 0
  exact ⟨hne, hlen, hhit,
    (checkShadow_iff_any_hit farBallScene (lightAt 0 0 1) ⟨0, 0, 0⟩ (colouredBall 1 0 0)
      hne).2 (colouredBall 1 0 0) (by simp [farBallScene]) 4 hhit hlen⟩

/-! ## Illumination -/

/-- A ray leaving the near pole `(0, 0, 4)` of the ball at `(0, 0, 5)` along `-z` does
not hit that ball. -/
theorem poleRay_miss (r g b c distance : ℝ) (hc : 0 < c) :
    (colouredBall r g b).intersect ⟨⟨0, 0, 4⟩, ⟨0, 0, -c⟩⟩ distance = (false, distance) := by
  have hd : (⟨⟨0, 0, 4⟩, ⟨0, 0, -c⟩⟩ : Ray).dir ≠ Vec3.zero := by
    intro h
    have hz := congrArg Vec3.z h
    simp only [Vec3.zero] at hz
    linarith
  apply intersect_false_of_quadB_nonneg _ _ _ hd
  rw [quadB, unitDir, normalize_dotProduct]
  have hl := getLength_pos hd
  have hdot : (⟨⟨0, 0, 4⟩, ⟨0, 0, -c⟩⟩ : Ray).dir.dotProduct
      (offset (colouredBall r g b) ⟨⟨0, 0, 4⟩, ⟨0, 0, -c⟩⟩) = c := by
    simp only [offset, colouredBall, Vec3.sub, Vec3.dotProduct]
    ring
  rw [hdot]
  positivity

theorem nearestHit_twoLightScene :
    nearestHit rayZ twoLightScene = ⟨4, colouredBall 1 0 0, ⟨⟨0, 0, 4⟩, ⟨0, 0, -1⟩⟩⟩ := by
  simp only [nearestHit, twoLightScene, List.foldl, nearestStep, colouredBall_hit]
  norm_num [rayZ, colouredBall, Ball.getNormal, Vec3.scale, Vec3.add, Vec3.sub,
    normalize_axis_z]

theorem getMirrored_pole :
    (colouredBall 1 0 0).getMirrored rayZ.dir ⟨0, 0, 4⟩ = ⟨0, 0, -1⟩ := by
  simp only [Ball.getMirrored, Ball.getNormal, colouredBall, rayZ, Vec3.scale, Vec3.sub,
    Vec3.add, Vec3.dotProduct]
  norm_num [normalize_axis_z]

/-- C9, evaluation at the failing input: the ray along `+z` hits the ball at `(0, 0, 4)`
with normal `(0, 0, -1)`; both lights are unoccluded and each contributes a diffuse term
`1` and a specular term `1`.  `computeBrightness`, called as `trace` calls it, returns
`(specular, diffuse) = (1, 1)`, the terms of the last light, while the sums over the
unoccluded lights are `(2, 2)`. -/
theorem computeBrightness_keeps_last_light :
    computeBrightness rayZ twoLightScene (nearestHit rayZ twoLightScene).normal_ray
        (nearestHit rayZ twoLightScene).ball = (1, 1) ∧
      brightnessSum rayZ twoLightScene (nearestHit rayZ twoLightScene).normal_ray
        (nearestHit rayZ twoLightScene).ball = (2, 2) ∧
      (∀ l ∈ twoLightScene.lights,
        checkShadow twoLightScene l (nearestHit rayZ twoLightScene).normal_ray.pos
          (nearestHit rayZ twoLightScene).ball = false) := by
  rw [nearestHit_twoLightScene]
  have hs1 : checkShadow twoLightScene (lightAt 0 0 (-1)) ⟨0, 0, 4⟩ (colouredBall 1 0 0) =
      false := by
    simp only [checkShadow, twoLightScene, checkShadowLoop, lightAt, Vec3.sub, sub_self]
    rw [show (-1 : ℝ) - 4 = -5 by norm_num, poleRay_miss 1 0 0 5 0 (by norm_num)]
    simp
  have hs2 : checkShadow twoLightScene (lightAt 0 0 (-2)) ⟨0, 0, 4⟩ (colouredBall 1 0 0) =
      false := by
    simp only [checkShadow, twoLightScene, checkShadowLoop, lightAt, Vec3.sub, sub_self]
    rw [show (-2 : ℝ) - 4 = -6 by norm_num, poleRay_miss 1 0 0 6 0 (by norm_num)]
    simp
  have hl1 : ((lightAt 0 0 (-1)).pos.sub ⟨0, 0, 4⟩).normalize = ⟨0, 0, -1⟩ := by
    simp only [lightAt, Vec3.sub, sub_self, normalize_axis_z]
    norm_num
  have hl2 : ((lightAt 0 0 (-2)).pos.sub ⟨0, 0, 4⟩).normalize = ⟨0, 0, -1⟩ := by
    simp only [lightAt, Vec3.sub, sub_self, normalize_axis_z]
    norm_num
  have hL : twoLightScene.lights = [lightAt 0 0 (-1), lightAt 0 0 (-2)] := rfl
  refine ⟨?_, ?_, ?_⟩
  · simp only [computeBrightness, getMirrored_pole, hL, List.foldl]
    rw [hs1, hs2, hl2]
    simp [Vec3.dotProduct]
  · simp only [brightnessSum, getMirrored_pole, hL]
    simp only [List.filter, hs1, hs2, Bool.not_false, List.map, hl1, hl2]
    simp [Vec3.dotProduct]
    norm_num
  · intro l hl
    simp only [twoLightScene, List.mem_cons, List.mem_singleton, List.not_mem_nil,
      or_false] at hl
    rcases hl with hl | hl <;> rw [hl]
    · exact hs1
    · exact hs2

/-! ## Occlusion by a ball between the point and the light -/

theorem getLength_nonneg (v : Vec3) : 0 ≤ v.getLength := Real.sqrt_nonneg _

theorem getLength_eq_of_sq (v : Vec3) (t : ℝ) (ht : 0 ≤ t)
    (h : v.x * v.x + v.y * v.y + v.z * v.z = t * t) : v.getLength = t := by
  unfold Vec3.getLength
  rw [h]
  exact Real.sqrt_mul_self ht

/-- A ball of radius `ρ > 0` centred at `point + s·(target - point)`, `0 < s`, with the
point strictly outside it, is hit by the ray from the point towards the target. -/
theorem intersect_between (occ : Ball) (point target : Vec3) (s distance : ℝ)
    (hr : 0 < occ.radius) (hs0 : 0 < s)
    (hseg : occ.pos = point.add ((target.sub point).scale s))
    (hout : occ.radius < (point.sub occ.pos).getLength) :
    (occ.intersect ⟨point, target.sub point⟩ distance).1 = true := by
  have hoff : (point.sub occ.pos).getLength = s * (target.sub point).getLength := by
    apply getLength_eq_of_sq _ _ (mul_nonneg (le_of_lt hs0) (getLength_nonneg _))
    rw [mul_mul_mul_comm, getLength_sq (target.sub point), hseg]
    simp only [Vec3.sub, Vec3.add, Vec3.scale]
    ring
  have hlen : 0 < (target.sub point).getLength := by
    rcases lt_or_eq_of_le (getLength_nonneg (target.sub point)) with h | h
    · exact h
    · rw [hoff, ← h] at hout
      linarith
  have hd : (⟨point, target.sub point⟩ : Ray).dir ≠ Vec3.zero := by
    intro hc
    have hz : (target.sub point).getLength = 0 := by
      rw [show target.sub point = Vec3.zero from hc]
      simp [Vec3.getLength, Vec3.zero]
    linarith
  have hsq := getLength_sq (target.sub point)
  have hA := quadA_eq_one hd
  have hB : quadB occ ⟨point, target.sub point⟩ = -(2 * s * (target.sub point).getLength) := by
    rw [quadB, unitDir, normalize_dotProduct]
    have hdot : (target.sub point).dotProduct (offset occ ⟨point, target.sub point⟩) =
        -(s * ((target.sub point).getLength * (target.sub point).getLength)) := by
      rw [hsq, offset, hseg]
      simp only [Vec3.sub, Vec3.add, Vec3.scale, Vec3.dotProduct]
      ring
    show 2 * ((target.sub point).dotProduct (offset occ ⟨point, target.sub point⟩) /
      (target.sub point).getLength) = _
    rw [hdot]
    field_simp
    ring
  have hC : quadC occ ⟨point, target.sub point⟩ =
      (s * (target.sub point).getLength) ^ 2 - occ.radius ^ 2 := by
    have h2 := getLength_sq (point.sub occ.pos)
    rw [hoff] at h2
    rw [quadC, offset]
    simp only [Vec3.dotProduct] at h2 ⊢
    nlinarith
  have hD : disc occ ⟨point, target.sub point⟩ = (2 * occ.radius) ^ 2 := by
    rw [disc, hA, hB, hC]
    ring
  have hS : Real.sqrt (disc occ ⟨point, target.sub point⟩) = 2 * occ.radius := by
    rw [hD]
    exact Real.sqrt_sq (by linarith)
  have hroot : smallerRoot occ ⟨point, target.sub point⟩ =
      s * (target.sub point).getLength - occ.radius := by
    rw [smallerRoot, hA, hB, hS]
    ring
  have hpos : ¬ disc occ ⟨point, target.sub point⟩ ≤ 0 := by
    rw [hD]
    have := pow_pos (show 0 < 2 * occ.radius by linarith) 2
    linarith
  rw [intersect_unfold _ _ _ hd, if_neg hpos, hroot, if_neg (by rw [hoff] at hout; linarith)]

/-- C11: in a scene with exactly one light, if some ball of the scene has radius `ρ > 0`,
is centred on the open segment from the point to the light (`center = point +
s·(light - point)`, `0 < s < 1`) and leaves the point strictly outside
(`|point - center| > ρ`), then `checkShadow` returns true for that light and
`computeBrightness` at that point returns `specular = 0` and `diffuse = 0`. -/
theorem shadow_between (scene : Scene) (light : Light) (ray : Ray) (point normal : Vec3)
    (ball occ : Ball) (s : ℝ)
    (hone : scene.lights = [light]) (hocc : occ ∈ scene.balls) (hr : 0 < occ.radius)
    (hs0 : 0 < s) (_hs1 : s < 1)
    (hseg : occ.pos = point.add ((light.pos.sub point).scale s))
    (hout : occ.radius < (point.sub occ.pos).getLength) :
    checkShadow scene light point ball = true ∧
      computeBrightness ray scene ⟨point, normal⟩ ball = (0, 0) := by
  have hshadow : checkShadow scene light point ball = true :=
    (checkShadowLoop_iff light point scene.balls).mpr
      ⟨occ, hocc, intersect_between occ point light.pos s 0 hr hs0 hseg hout⟩
  refine ⟨hshadow, ?_⟩
  simp only [computeBrightness, hone, List.foldl, hshadow, if_true]

theorem getLength_axis_z (c : ℝ) : Vec3.getLength ⟨0, 0, c⟩ = |c| := by
  simp only [Vec3.getLength]
  rw [show (0 : ℝ) * 0 + 0 * 0 + c * c = c * c by ring]
  exact Real.sqrt_mul_self_eq_abs c

/-- Witness of C11: the point is the origin, the light is at `(0, 0, 10)` and the unit
ball at `(0, 0, 5)` sits halfway; the shadow test is true and both brightness outputs
are `0`. -/
theorem shadow_between_witness :
    (occludedScene.lights = [lightAt 0 0 10] ∧ colouredBall 1 0 0 ∈ occludedScene.balls ∧
      0 < (colouredBall 1 0 0).radius ∧ (0 : ℝ) < 1 / 2 ∧ (1 / 2 : ℝ) < 1 ∧
      (colouredBall 1 0 0).pos =
        (⟨0, 0, 0⟩ : Vec3).add (((lightAt 0 0 10).pos.sub ⟨0, 0, 0⟩).scale (1 / 2)) ∧
      (colouredBall 1 0 0).radius < ((⟨0, 0, 0⟩ : Vec3).sub (colouredBall 1 0 0).pos).getLength) ∧
    (checkShadow occludedScene (lightAt 0 0 10) ⟨0, 0, 0⟩ (colouredBall 0 1 0) = true ∧
      computeBrightness rayZ occludedScene ⟨⟨0, 0, 0⟩, ⟨0, 0, -1⟩⟩ (colouredBall 0 1 0) =
        (0, 0)) := by
  have hmem : colouredBall 1 0 0 ∈ occludedScene.balls := by simp [occludedScene]
  have hr : 0 < (colouredBall 1 0 0).radius := by simp [colouredBall]
  have hseg : (colouredBall 1 0 0).pos =
      (⟨0, 0, 0⟩ : Vec3).add (((lightAt 0 0 10).pos.sub ⟨0, 0, 0⟩).scale (1 / 2)) := by
    simp only [colouredBall, lightAt, Vec3.add, Vec3.sub, Vec3.scale]
    norm_num
  have hout : (colouredBall 1 0 0).radius <
      ((⟨0, 0, 0⟩ : Vec3).sub (colouredBall 1 0 0).pos).getLength := by
    simp only [colouredBall, Vec3.sub, sub_self, getLength_axis_z]
    norm_num
  exact ⟨⟨rfl, hmem, hr, by norm_num, by norm_num, hseg, hout⟩,
    shadow_between occludedScene (lightAt 0 0 10) rayZ ⟨0, 0, 0⟩ ⟨0, 0, -1⟩ (colouredBall 0 1 0)
      (colouredBall 1 0 0) (1 / 2) rfl hmem hr (by norm_num) (by norm_num) hseg hout⟩

/-! ## Mirror reflection -/

theorem getLength_scale_neg_one (d : Vec3) : (d.scale (-1)).getLength = d.getLength := by
  simp only [Vec3.getLength, Vec3.scale]
  congr 1
  ring

theorem normalize_scale_neg_one (d : Vec3) :
    (d.scale (-1)).normalize = d.normalize.neg := by
  simp only [Vec3.normalize, getLength_scale_neg_one, Vec3.neg]
  simp only [Vec3.scale]
  ext <;> simp

theorem normalize_of_unit (v : Vec3) (h : v.getLength = 1) : v.normalize = v := by
  simp only [Vec3.normalize, h]
  ext <;> simp

theorem neg_dot_self (v : Vec3) : v.neg.dotProduct v.neg = v.dotProduct v := by
  simp only [Vec3.neg, Vec3.dotProduct]
  ring

theorem getNormal_unit (ball : Ball) (point : Vec3) (h : point ≠ ball.pos) :
    (ball.getNormal point).dotProduct (ball.getNormal point) = 1 := by
  apply normalize_dot_self
  intro hc
  apply h
  have hx := congrArg Vec3.x hc
  have hy := congrArg Vec3.y hc
  have hz := congrArg Vec3.z hc
  simp only [Vec3.sub, Vec3.zero] at hx hy hz
  ext <;> linarith

/-- The source function written with the reflection formula `2·(n·in)·n - in`. -/
theorem getMirrored_eq (ball : Ball) (d point : Vec3) :
    ball.getMirrored d point =
      ((ball.getNormal point).scale
        (2 * (ball.getNormal point).dotProduct d.normalize.neg)).sub d.normalize.neg := by
  simp only [Ball.getMirrored, normalize_scale_neg_one]
  simp only [Vec3.scale, Vec3.add, Vec3.sub]
  ext <;> simp only <;> ring

/-- The reflection of a unit vector about a unit normal is a unit vector. -/
theorem mirror_dot_self (n i : Vec3) (hn : n.dotProduct n = 1) (hi : i.dotProduct i = 1) :
    ((n.scale (2 * n.dotProduct i)).sub i).dotProduct
      ((n.scale (2 * n.dotProduct i)).sub i) = 1 := by
  simp only [Vec3.scale, Vec3.sub, Vec3.dotProduct] at hn hi ⊢
  linear_combination (4 * (i.x * n.x + i.y * n.y + i.z * n.z) ^ 2) * hn + hi

theorem getLength_of_dot_self_one (v : Vec3) (h : v.dotProduct v = 1) : v.getLength = 1 := by
  apply getLength_eq_of_sq v 1 (by norm_num)
  simp only [Vec3.dotProduct] at h
  linarith

theorem getMirrored_dot_self (ball : Ball) (d point : Vec3)
    (hp : point ≠ ball.pos) (hd : d ≠ Vec3.zero) :
    (ball.getMirrored d point).dotProduct (ball.getMirrored d point) = 1 := by
  rw [getMirrored_eq]
  apply mirror_dot_self _ _ (getNormal_unit ball point hp)
  rw [neg_dot_self]
  exact normalize_dot_self hd

/-- C13: for a point different from the ball centre and a non-zero incoming direction
`d`, with `n = getNormal(point)` (unit length) and `in = -normalize(d)`,
`getMirrored(d, point)` equals `2·(n·in)·n - in` and has length exactly `1`. -/
theorem getMirrored_formula (ball : Ball) (d point : Vec3)
    (hp : point ≠ ball.pos) (hd : d ≠ Vec3.zero) :
    (ball.getNormal point).getLength = 1 ∧
    ball.getMirrored d point =
      ((ball.getNormal point).scale
        (2 * (ball.getNormal point).dotProduct d.normalize.neg)).sub d.normalize.neg ∧
    (ball.getMirrored d point).getLength = 1 :=
  ⟨getLength_of_dot_self_one _ (getNormal_unit ball point hp), getMirrored_eq ball d point,
    getLength_of_dot_self_one _ (getMirrored_dot_self ball d point hp hd)⟩

/-- C12: for a point different from the ball centre and a non-zero direction `d`,
mirroring twice about the same normal gives `getMirrored(getMirrored(d, point), point) =
normalize(d)`; for a unit-length `d` this is `d` itself. -/
theorem getMirrored_involutive (ball : Ball) (d point : Vec3)
    (hp : point ≠ ball.pos) (hd : d ≠ Vec3.zero) :
    ball.getMirrored (ball.getMirrored d point) point = d.normalize ∧
      (d.getLength = 1 → ball.getMirrored (ball.getMirrored d point) point = d) := by
  have hn := getNormal_unit ball point hp
  have hm := getLength_of_dot_self_one _ (getMirrored_dot_self ball d point hp hd)
  have hmain : ball.getMirrored (ball.getMirrored d point) point = d.normalize := by
    rw [getMirrored_eq ball (ball.getMirrored d point) point, normalize_of_unit _ hm,
      getMirrored_eq ball d point]
    simp only [Vec3.scale, Vec3.sub, Vec3.neg, Vec3.dotProduct] at hn ⊢
    ext
    · simp only
      linear_combination (-4 * (ball.getNormal point).x *
        (-d.normalize.x * (ball.getNormal point).x + -d.normalize.y * (ball.getNormal point).y +
          -d.normalize.z * (ball.getNormal point).z)) * hn
    · simp only
      linear_combination (-4 * (ball.getNormal point).y *
        (-d.normalize.x * (ball.getNormal point).x + -d.normalize.y * (ball.getNormal point).y +
          -d.normalize.z * (ball.getNormal point).z)) * hn
    · simp only
      linear_combination (-4 * (ball.getNormal point).z *
        (-d.normalize.x * (ball.getNormal point).x + -d.normalize.y * (ball.getNormal point).y +
          -d.normalize.z * (ball.getNormal point).z)) * hn
  refine ⟨hmain, ?_⟩
  intro hu
  rw [hmain, normalize_of_unit d hu]

theorem pole_ne_centre (r g b : ℝ) : (⟨0, 0, 4⟩ : Vec3) ≠ (colouredBall r g b).pos := by
  intro hc
  have hz := congrArg Vec3.z hc
  norm_num [colouredBall] at hz

theorem slantDir_ne_zero : slantDir ≠ Vec3.zero := by
  intro hc
  have hz := congrArg Vec3.z hc
  norm_num [slantDir, Vec3.zero] at hz

theorem slantDir_normalize : slantDir.normalize = ⟨0, 3 / 5, 4 / 5⟩ := by
  have hlen : slantDir.getLength = 5 :=
    getLength_eq_of_sq slantDir 5 (by norm_num) (by norm_num [slantDir])
  simp only [Vec3.normalize, hlen]
  ext <;> norm_num [slantDir]

/-- Witness of C13: the direction `(0, 3, 4)` mirrored at the near pole `(0, 0, 4)` of the
unit ball at `(0, 0, 5)` is a unit vector. -/
theorem getMirrored_formula_witness :
    ((⟨0, 0, 4⟩ : Vec3) ≠ (colouredBall 1 0 0).pos ∧ slantDir ≠ Vec3.zero) ∧
      ((colouredBall 1 0 0).getMirrored slantDir ⟨0, 0, 4⟩).getLength = 1 :=
  ⟨⟨pole_ne_centre 1 0 0, slantDir_ne_zero⟩,
    (getMirrored_formula (colouredBall 1 0 0) slantDir ⟨0, 0, 4⟩ (pole_ne_centre 1 0 0)
      slantDir_ne_zero).2.2⟩

/-- Witness of C12: the direction `(0, 3, 4)` mirrored twice at the near pole `(0, 0, 4)`
of the unit ball at `(0, 0, 5)` is its normalization `(0, 3/5, 4/5)`. -/
theorem getMirrored_involutive_witness :
    ((⟨0, 0, 4⟩ : Vec3) ≠ (colouredBall 1 0 0).pos ∧ slantDir ≠ Vec3.zero) ∧
      (colouredBall 1 0 0).getMirrored
        ((colouredBall 1 0 0).getMirrored slantDir ⟨0, 0, 4⟩) ⟨0, 0, 4⟩ = ⟨0, 3 / 5, 4 / 5⟩ :=
  ⟨⟨pole_ne_centre 1 0 0, slantDir_ne_zero⟩,
    ((getMirrored_involutive (colouredBall 1 0 0) slantDir ⟨0, 0, 4⟩ (pole_ne_centre 1 0 0)
      slantDir_ne_zero).1).trans slantDir_normalize⟩

/-! ## Ray generation -/

theorem tan_pi_div_eight_bounds : 0 < Real.tan (Real.pi / 8) ∧ Real.tan (Real.pi / 8) < 1 := by
  have hpi := Real.pi_pos
  constructor
  · exact Real.tan_pos_of_pos_of_lt_pi_div_two (by linarith) (by linarith)
  · rw [← Real.tan_pi_div_four]
    exact Real.tan_lt_tan_of_lt_of_lt_pi_div_two (by linarith) (by linarith) (by linarith)

theorem projectionDistance_eq (h : Int) (fov : ℝ) :
    projectionDistance h fov = (h : ℝ) / (2 * Real.tan (fov * Real.pi / 180)) := by
  rw [projectionDistance, show fov / 180 * Real.pi = fov * Real.pi / 180 by ring]
  by_cases ht : Real.tan (fov * Real.pi / 180) = 0
  · simp [ht]
  · field_simp
    ring

/-- C14 as stated fails: for the field of view `45` and the height `720` used by `main`,
the code computes `z = 720 / tan(π/4) · 0.5 = 360`, while `h / tan(fov_radians/2) =
720 / tan(π/8)` exceeds `720`. -/
theorem projectionDistance_counterexample :
    ((0 : ℝ) < 45 ∧ (45 : ℝ) < 180 ∧ (0 : Int) < 720) ∧
      projectionDistance 720 45 = 360 ∧
      720 < specifiedProjectionDistance 720 45 ∧
      projectionDistance 720 45 ≠ specifiedProjectionDistance 720 45 := by
  have hcode : projectionDistance 720 45 = 360 := by
    rw [projectionDistance, show (45 : ℝ) / 180 * Real.pi = Real.pi / 4 by ring,
      Real.tan_pi_div_four]
    norm_num
  have hspec : 720 < specifiedProjectionDistance 720 45 := by
    rw [specifiedProjectionDistance, show (45 : ℝ) * Real.pi / 180 / 2 = Real.pi / 8 by ring]
    obtain ⟨h0, h1⟩ := tan_pi_div_eight_bounds
    rw [lt_div_iff₀ h0]
    push_cast
    nlinarith
  refine ⟨⟨by norm_num, by norm_num, by norm_num⟩, hcode, hspec, ?_⟩
  rw [hcode]
  intro hc
  rw [← hc] at hspec
  norm_num at hspec

/-- C14 (amended): for a field of view `0 < fov < 180` (degrees) and a height `h > 0`,
the projection distance used by `computeRays` for the pre-rotation pixel directions is
`z = (h / tan(fov_radians)) · 0.5 = h / (2·tan(fov_radians))` with `fov_radians =
fov·π/180`: the halving applies to the quotient, not to the angle. -/
theorem projectionDistance_formula (w h : Int) (camera : Camera) (x y : Int)
    (_hfov0 : 0 < camera.fov) (_hfov1 : camera.fov < 180) (_hh : 0 < h) :
    projectionDistance h camera.fov =
        (h : ℝ) / (2 * Real.tan (camera.fov * Real.pi / 180)) ∧
      pixelRay w h camera x y =
        ⟨camera.pos,
          yawRotate (Real.cos (vectorAngle camera.dir.x camera.dir.z))
            (Real.sin (vectorAngle camera.dir.x camera.dir.z))
            (Vec3.normalize ⟨(x : ℝ) + 0.5 - (w : ℝ) * 0.5, -((y : ℝ) + 0.5 - (h : ℝ) * 0.5),
              (h : ℝ) / (2 * Real.tan (camera.fov * Real.pi / 180))⟩)⟩ := by
  refine ⟨projectionDistance_eq h camera.fov, ?_⟩
  simp only [pixelRay, projectionDistance_eq]

/-- Witness of C14 (amended): the camera of `setupScene` (field of view `45`) and the
height `720` give `z = 360`. -/
theorem projectionDistance_formula_witness :
    (0 < setupCamera.fov ∧ setupCamera.fov < 180 ∧ (0 : Int) < 720) ∧
      (720 : ℝ) / (2 * Real.tan (setupCamera.fov * Real.pi / 180)) = 360 := by
  have hf0 : 0 < setupCamera.fov := by norm_num [setupCamera]
  have hf1 : setupCamera.fov < 180 := by norm_num [setupCamera]
  have h := (projectionDistance_formula 1280 720 setupCamera 0 0 hf0 hf1 (by norm_num)).1
  refine ⟨⟨hf0, hf1, by norm_num⟩, ?_⟩
  have hcode : projectionDistance 720 setupCamera.fov = 360 := by
    rw [projectionDistance, show setupCamera.fov = 45 from rfl,
      show (45 : ℝ) / 180 * Real.pi = Real.pi / 4 by ring, Real.tan_pi_div_four]
    norm_num
  rw [← hcode, h]
  norm_num

theorem foldl_push_eq (f : ℕ → Ray) (l : List ℕ) (init : List Ray) :
    l.foldl (fun (rays : List Ray) (x : ℕ) => rays ++ [f x]) init = init ++ l.map f := by
  induction l generalizing init with
  | nil => simp
  | cons a l ih => simp [ih]

/-- The buffer built by two nested push loops is the row-major grid. -/
theorem grid_foldl (f : ℕ → ℕ → Ray) (W k : ℕ) :
    ((List.range k).foldl
        (fun (rays : List Ray) (y : ℕ) =>
          (List.range W).foldl (fun (rays : List Ray) (x : ℕ) => rays ++ [f x y]) rays)
        []).length = k * W ∧
    ∀ x y : ℕ, x < W → y < k →
      ((List.range k).foldl
        (fun (rays : List Ray) (y : ℕ) =>
          (List.range W).foldl (fun (rays : List Ray) (x : ℕ) => rays ++ [f x y]) rays)
        [])[y * W + x]? = some (f x y) := by
  induction k with
  | zero =>
    refine ⟨by simp, ?_⟩
    intro x y _ hy
    omega
  | succ k ih =>
    obtain ⟨hlen, hget⟩ := ih
    rw [List.range_succ, List.foldl_append]
    simp only [List.foldl_cons, List.foldl_nil]
    rw [foldl_push_eq (fun x => f x k)]
    constructor
    · rw [List.length_append, hlen, List.length_map, List.length_range, Nat.succ_mul]
    · intro x y hx hy
      rcases Nat.lt_succ_iff_lt_or_eq.mp hy with hlt | heq
      · have hbound : y * W + x < k * W := by
          have h1 := Nat.mul_le_mul_right W (Nat.succ_le_of_lt hlt)
          rw [Nat.succ_mul] at h1
          omega
        rw [List.getElem?_append_left (by rw [hlen]; exact hbound)]
        exact hget x y hx hlt
      · rw [heq, List.getElem?_append_right (by rw [hlen]; omega), hlen,
          Nat.add_sub_cancel_left, List.getElem?_map, List.getElem?_range hx]
        rfl

theorem pixelRay_eq (w h : Int) (camera : Camera) (x y : ℕ) :
    pixelRay w h camera x y =
      ⟨camera.pos,
        yawRotate (Real.cos (vectorAngle camera.dir.x camera.dir.z))
          (Real.sin (vectorAngle camera.dir.x camera.dir.z))
          (pixelVector w h camera.fov x y).normalize⟩ := by
  simp only [pixelRay, pixelVector, Int.cast_natCast]
  rw [show (w : ℝ) * 0.5 = (w : ℝ) / 2 by ring, show (h : ℝ) * 0.5 = (h : ℝ) / 2 by ring]

theorem computeRays_get (old : List Ray) (w h : Int) (camera : Camera) :
    (computeRays old w h camera).length = h.toNat * w.toNat ∧
    ∀ x y : ℕ, x < w.toNat → y < h.toNat →
      (computeRays old w h camera)[y * w.toNat + x]? = some (pixelRay w h camera x y) :=
  grid_foldl (fun x y => pixelRay w h camera x y) w.toNat h.toNat

theorem sqrt_sq_add_pos (x y : ℝ) (h : x ≠ 0 ∨ y ≠ 0) : 0 < Real.sqrt (x ^ 2 + y ^ 2) := by
  apply Real.sqrt_pos.mpr
  rcases h with h | h
  · have := pow_pos (abs_pos.mpr h) 2
    rw [sq_abs] at this
    nlinarith [sq_nonneg y]
  · have := pow_pos (abs_pos.mpr h) 2
    rw [sq_abs] at this
    nlinarith [sq_nonneg x]

theorem sqrt_one_add_ratio_sq (x y : ℝ) (hx : x ≠ 0) :
    Real.sqrt (1 + (y / x) ^ 2) = Real.sqrt (x ^ 2 + y ^ 2) / |x| := by
  have h1 : 1 + (y / x) ^ 2 = (x ^ 2 + y ^ 2) / x ^ 2 := by
    field_simp
  rw [h1, Real.sqrt_div (by positivity), Real.sqrt_sq_eq_abs]

/-- Cosine and sine of `arctan (y / x)` scaled by the length of `(x, y)`. -/
theorem arctan_ratio_polar (x y : ℝ) (hx : x ≠ 0) :
    Real.sqrt (x ^ 2 + y ^ 2) * Real.cos (Real.arctan (y / x)) = |x| ∧
      Real.sqrt (x ^ 2 + y ^ 2) * Real.sin (Real.arctan (y / x)) = y / x * |x| := by
  have hr := sqrt_sq_add_pos x y (Or.inl hx)
  have hax : 0 < |x| := abs_pos.mpr hx
  rw [Real.cos_arctan, Real.sin_arctan, sqrt_one_add_ratio_sq x y hx]
  constructor
  · field_simp
  · field_simp
    ring

theorem arctan_pos_of_pos {t : ℝ} (h : 0 < t) : 0 < Real.arctan t := by
  have := Real.arctan_strictMono h
  rwa [Real.arctan_zero] at this

theorem arctan_neg_of_neg {t : ℝ} (h : t < 0) : Real.arctan t < 0 := by
  have := Real.arctan_strictMono h
  rwa [Real.arctan_zero] at this

theorem sqrt_zero_sq_add (y : ℝ) : Real.sqrt (0 ^ 2 + y ^ 2) = |y| := by
  rw [show (0 : ℝ) ^ 2 + y ^ 2 = y ^ 2 by ring, Real.sqrt_sq_eq_abs]

theorem sqrt_sq_add_zero (x : ℝ) : Real.sqrt (x ^ 2 + 0 ^ 2) = |x| := by
  rw [show x ^ 2 + (0 : ℝ) ^ 2 = x ^ 2 by ring, Real.sqrt_sq_eq_abs]

/-- The angle returned by `vectorAngle` is the polar angle of `(x, y)` in `[0, 2π)`. -/
theorem vectorAngle_spec (x y : ℝ) (h : x ≠ 0 ∨ y ≠ 0) :
    0 ≤ vectorAngle x y ∧ vectorAngle x y < 2 * Real.pi ∧
      x = Real.sqrt (x ^ 2 + y ^ 2) * Real.cos (vectorAngle x y) ∧
      y = Real.sqrt (x ^ 2 + y ^ 2) * Real.sin (vectorAngle x y) := by
  have hpi := Real.pi_pos
  by_cases hx : x = 0
  · subst hx
    have hy : y ≠ 0 := by
      rcases h with h | h
      · exact absurd rfl h
      · exact h
    rcases lt_or_gt_of_ne hy with hneg | hpos
    · have hv : vectorAngle 0 y = Real.pi / 2 + Real.pi := by
        simp only [vectorAngle, if_true, gt_iff_lt, if_neg (not_lt.mpr (le_of_lt hneg)),
          if_neg hy]
        ring
      rw [hv, Real.cos_add_pi, Real.sin_add_pi, Real.cos_pi_div_two, Real.sin_pi_div_two,
        sqrt_zero_sq_add, abs_of_neg hneg]
      refine ⟨by linarith, by linarith, by ring, by ring⟩
    · have hv : vectorAngle 0 y = Real.pi / 2 := by
        simp only [vectorAngle, if_true, gt_iff_lt, if_pos hpos]
        ring
      rw [hv, Real.cos_pi_div_two, Real.sin_pi_div_two, sqrt_zero_sq_add, abs_of_pos hpos]
      refine ⟨by linarith, by linarith, by ring, by ring⟩
  · by_cases hy : y = 0
    · subst hy
      rcases lt_or_gt_of_ne hx with hneg | hpos
      · have hv : vectorAngle x 0 = Real.pi := by
          simp only [vectorAngle, if_neg hx, if_true, ge_iff_le, if_neg (not_le.mpr hneg)]
        rw [hv, Real.cos_pi, Real.sin_pi, sqrt_sq_add_zero, abs_of_neg hneg]
        refine ⟨by linarith, by linarith, by ring, by ring⟩
      · have hv : vectorAngle x 0 = 0 := by
          simp only [vectorAngle, if_neg hx, if_true, ge_iff_le, if_pos (le_of_lt hpos)]
        rw [hv, Real.cos_zero, Real.sin_zero, sqrt_sq_add_zero, abs_of_pos hpos]
        refine ⟨le_refl _, by linarith, by ring, by ring⟩
    · obtain ⟨hcos, hsin⟩ := arctan_ratio_polar x y hx
      have hlo := Real.neg_pi_div_two_lt_arctan (y / x)
      have hhi := Real.arctan_lt_pi_div_two (y / x)
      rcases lt_or_gt_of_ne hx with hxneg | hxpos
      · have hv : vectorAngle x y = Real.arctan (y / x) + Real.pi := by
          simp only [vectorAngle, if_neg hx, if_neg hy, if_pos hxneg]
          by_cases hyneg : y < 0
          · rw [if_pos ⟨hxneg, hyneg⟩]
            ring
          · rw [if_neg (fun hc => hyneg hc.2)]
            ring
        rw [hv, Real.cos_add_pi, Real.sin_add_pi]
        rw [abs_of_neg hxneg] at hcos hsin
        refine ⟨by linarith, by linarith, by linarith, ?_⟩
        have : y / x * -x = -y := by field_simp
        rw [this] at hsin
        linarith
      · rw [abs_of_pos hxpos] at hcos hsin
        have hyx : y / x * x = y := by field_simp
        rw [hyx] at hsin
        rcases lt_or_gt_of_ne hy with hyneg | hypos
        · have hv : vectorAngle x y = Real.arctan (y / x) + 2 * Real.pi := by
            simp only [vectorAngle, if_neg hx, if_neg hy, if_neg (not_lt.mpr (le_of_lt hxpos)),
              if_neg (fun hc : x < 0 ∧ y < 0 => not_lt.mpr (le_of_lt hxpos) hc.1), if_pos hyneg]
            ring
          have ha := arctan_neg_of_neg (div_neg_of_neg_of_pos hyneg hxpos)
          rw [hv, Real.cos_add_two_pi, Real.sin_add_two_pi]
          exact ⟨by linarith, by linarith, hcos.symm, hsin.symm⟩
        · have hv : vectorAngle x y = Real.arctan (y / x) := by
            simp only [vectorAngle, if_neg hx, if_neg hy, if_neg (not_lt.mpr (le_of_lt hxpos)),
              if_neg (fun hc : x < 0 ∧ y < 0 => not_lt.mpr (le_of_lt hxpos) hc.1),
              if_neg (not_lt.mpr (le_of_lt hypos))]
          have ha := arctan_pos_of_pos (div_pos hypos hxpos)
          rw [hv]
          exact ⟨by linarith, by linarith, hcos.symm, hsin.symm⟩

/-- C18: for `(x, y) ≠ (0, 0)`, `θ = vectorAngle(x, y)` is the polar angle of the vector
normalized to one turn: `0 ≤ θ < 2π`, `x = sqrt(x² + y²)·cos θ` and
`y = sqrt(x² + y²)·sin θ`, in every quadrant and on every half-axis; and
`vectorAngle(0, 0) = 0`. -/
theorem vectorAngle_polar (x y : ℝ) :
    (x ≠ 0 ∨ y ≠ 0 →
      0 ≤ vectorAngle x y ∧ vectorAngle x y < 2 * Real.pi ∧
        x = Real.sqrt (x ^ 2 + y ^ 2) * Real.cos (vectorAngle x y) ∧
        y = Real.sqrt (x ^ 2 + y ^ 2) * Real.sin (vectorAngle x y)) ∧
      vectorAngle 0 0 = 0 := by
  refine ⟨vectorAngle_spec x y, ?_⟩
  simp [vectorAngle]

/-- Witness of C18: the vector `(-1, -1)` of the third quadrant. -/
theorem vectorAngle_polar_witness :
    ((-1 : ℝ) ≠ 0 ∨ (-1 : ℝ) ≠ 0) ∧
      (0 ≤ vectorAngle (-1) (-1) ∧ vectorAngle (-1) (-1) < 2 * Real.pi ∧
        (-1 : ℝ) = Real.sqrt ((-1) ^ 2 + (-1) ^ 2) * Real.cos (vectorAngle (-1) (-1)) ∧
        (-1 : ℝ) = Real.sqrt ((-1) ^ 2 + (-1) ^ 2) * Real.sin (vectorAngle (-1) (-1))) :=
  ⟨Or.inl (by norm_num), (vectorAngle_polar (-1) (-1)).1 (Or.inl (by norm_num))⟩

/-! ## Orientation of the ray grid -/

theorem pixelRay_dir_eq_cameraYaw (w h : Int) (camera : Camera) (x y : ℕ) :
    (pixelRay w h camera x y).dir = cameraYaw camera (pixelVector w h camera.fov x y).normalize := by
  rw [pixelRay_eq]
  rfl

/-- The yaw rotation sends the image-centre axis `(0, 0, 1)` to the horizontal camera
direction with its `x` and `z` components exchanged. -/
theorem cameraYaw_axis (camera : Camera) (h : camera.dir.x ≠ 0 ∨ camera.dir.z ≠ 0) :
    cameraYaw camera ⟨0, 0, 1⟩ =
      ⟨camera.dir.z / Real.sqrt (camera.dir.x ^ 2 + camera.dir.z ^ 2), 0,
        camera.dir.x / Real.sqrt (camera.dir.x ^ 2 + camera.dir.z ^ 2)⟩ := by
  obtain ⟨_, _, hcos, hsin⟩ := vectorAngle_spec camera.dir.x camera.dir.z h
  have hr := sqrt_sq_add_pos camera.dir.x camera.dir.z h
  simp only [cameraYaw, yawRotate]
  ext
  · simp only
    rw [eq_div_iff (ne_of_gt hr)]
    linarith
  · rfl
  · simp only
    rw [eq_div_iff (ne_of_gt hr)]
    linarith

/-- C16, evaluation at the failing input: for the camera of `setupScene`, whose direction
is `+x`, the yaw angle is `0` and the image-centre axis `(0, 0, 1)` stays `(0, 0, 1)`,
while the horizontal facing direction is `(1, 0, 0)`; for a camera facing `+z` the axis
is sent to `(1, 0, 0)`.  In general the axis is sent to `(dz, 0, dx)/sqrt(dx² + dz²)`. -/
theorem cameraYaw_swaps_axes :
    (cameraYaw setupCamera ⟨0, 0, 1⟩ = ⟨0, 0, 1⟩ ∧ horizontalFacing setupCamera = ⟨1, 0, 0⟩) ∧
    (cameraYaw forwardCamera ⟨0, 0, 1⟩ = ⟨1, 0, 0⟩ ∧
      horizontalFacing forwardCamera = ⟨0, 0, 1⟩) ∧
    (∀ camera : Camera, (camera.dir.x ≠ 0 ∨ camera.dir.z ≠ 0) →
      cameraYaw camera ⟨0, 0, 1⟩ =
        ⟨camera.dir.z / Real.sqrt (camera.dir.x ^ 2 + camera.dir.z ^ 2), 0,
          camera.dir.x / Real.sqrt (camera.dir.x ^ 2 + camera.dir.z ^ 2)⟩) := by
  refine ⟨⟨?_, ?_⟩, ⟨?_, ?_⟩, cameraYaw_axis⟩
  · rw [cameraYaw_axis setupCamera (Or.inl (by norm_num [setupCamera]))]
    simp [setupCamera]
  · simp [horizontalFacing, setupCamera]
  · rw [cameraYaw_axis forwardCamera (Or.inr (by norm_num [forwardCamera]))]
    simp [forwardCamera]
  · simp [horizontalFacing, forwardCamera]

/-! ## Scene animation -/

theorem rotate_rotateBy (θ : ℝ) (l : Light) :
    Light.rotate (Light.rotateBy θ l) = Light.rotateBy (θ + 0.03) l := by
  simp only [Light.rotate, Light.rotateBy, Real.cos_add, Real.sin_add]
  congr 1
  ext <;> simp only <;> ring

theorem rotateBy_zero (l : Light) : Light.rotateBy 0 l = l := by
  cases l with
  | mk pos color brightness =>
    cases pos
    simp [Light.rotateBy]

theorem update_iterate (scene : Scene) (n : ℕ) :
    Scene.update^[n] scene =
      ⟨scene.balls, scene.lights.map (Light.rotateBy (0.03 * n)), scene.camera⟩ := by
  induction n with
  | zero =>
    simp only [Function.iterate_zero, id_eq, Nat.cast_zero, mul_zero]
    rw [show Light.rotateBy 0 = id from funext rotateBy_zero, List.map_id]
  | succ n ih =>
    rw [Function.iterate_succ_apply', ih]
    simp only [Scene.update, List.map_map]
    congr 1
    apply List.map_congr_left
    intro l _
    simp only [Function.comp, rotate_rotateBy]
    congr 1
    push_cast
    ring

theorem rotateBy_invariants (θ : ℝ) (l : Light) :
    (Light.rotateBy θ l).pos.y = l.pos.y ∧
      (Light.rotateBy θ l).pos.x ^ 2 + (Light.rotateBy θ l).pos.z ^ 2 =
        l.pos.x ^ 2 + l.pos.z ^ 2 ∧
      (Light.rotateBy θ l).color = l.color ∧
      (Light.rotateBy θ l).brightness = l.brightness := by
  refine ⟨rfl, ?_, rfl, rfl⟩
  simp only [Light.rotateBy]
  linear_combination (l.pos.x ^ 2 + l.pos.z ^ 2) * Real.cos_sq_add_sin_sq θ

theorem rotateBy_sub_two_pi (θ : ℝ) (l : Light) :
    Light.rotateBy θ l = Light.rotateBy (θ - 2 * Real.pi) l := by
  simp only [Light.rotateBy, Real.cos_sub_two_pi, Real.sin_sub_two_pi]

/-- C17: `n` applications of `Scene.update()` move every light from `(x, y, z)` to
`(x·cos(0.03n) + z·sin(0.03n), y, -x·sin(0.03n) + z·cos(0.03n))` and leave the balls and
the camera alone: a rotation by `n·0.03` rad (between `1.71°` and `1.72°` per frame)
about the vertical axis through the origin, which preserves each light's `y` and
`x² + z²`; after 209 applications the rotation angle is `6.27` rad, which is the
residual `2π - 6.27` (positive, below `0.014` rad) short of a full turn. -/
theorem update_orbit (scene : Scene) (n : ℕ) :
    Scene.update^[n] scene =
        ⟨scene.balls, scene.lights.map (Light.rotateBy (0.03 * n)), scene.camera⟩ ∧
    (∀ (θ : ℝ) (l : Light), (Light.rotateBy θ l).pos.y = l.pos.y ∧
      (Light.rotateBy θ l).pos.x ^ 2 + (Light.rotateBy θ l).pos.z ^ 2 =
        l.pos.x ^ 2 + l.pos.z ^ 2) ∧
    (1.71 < 0.03 * 180 / Real.pi ∧ 0.03 * 180 / Real.pi < 1.72) ∧
    (Scene.update^[209] scene).lights =
        scene.lights.map (Light.rotateBy (-(2 * Real.pi - 6.27))) ∧
    (0 < 2 * Real.pi - 6.27 ∧ 2 * Real.pi - 6.27 < 0.014) := by
  have h1 := Real.pi_gt_d4
  have h2 := Real.pi_lt_d4
  refine ⟨update_iterate scene n, ?_, ⟨?_, ?_⟩, ?_, ⟨by linarith, by linarith⟩⟩
  · intro θ l
    exact ⟨(rotateBy_invariants θ l).1, (rotateBy_invariants θ l).2.1⟩
  · rw [lt_div_iff₀ Real.pi_pos]
    linarith
  · rw [div_lt_iff₀ Real.pi_pos]
    linarith
  · rw [update_iterate scene 209]
    apply List.map_congr_left
    intro l _
    rw [rotateBy_sub_two_pi]
    congr 1
    push_cast
    ring

/-- Witness-style evaluation of C17: one update of the scene whose light is the one of
`setupScene`. -/
theorem update_orbit_witness :
    (Scene.update^[1] orbitScene).lights =
      [Light.rotateBy (0.03 * (1 : ℕ)) (lightAt 100 140 200)] := by
  rw [(update_orbit orbitScene 1).1]
  rfl

/-! ## The ray buffer across frames -/

theorem rayLookup_nil (x y : Int) : rayLookup [] x y = none := by
  unfold rayLookup
  split_ifs <;> rfl

theorem frameStep_iterate_rays (st : LoopState) (k : ℕ) :
    (frameStep^[k + 1] st).rays = [] := by
  rw [Function.iterate_succ_apply']
  rfl

theorem rayLookup_mainInit (scene : Scene) (x y : Int)
    (hx0 : 0 ≤ x) (hx1 : x < width) (hy0 : 0 ≤ y) (hy1 : y < height) :
    rayLookup (mainInit scene).rays x y = some (pixelRay width height scene.camera x y) := by
  obtain ⟨xn, rfl⟩ := Int.eq_ofNat_of_zero_le hx0
  obtain ⟨yn, rfl⟩ := Int.eq_ofNat_of_zero_le hy0
  have hw : width.toNat = 1280 := rfl
  have hh : height.toNat = 720 := rfl
  have hxn : xn < width.toNat := by rw [hw]; unfold width at hx1; omega
  have hyn : yn < height.toNat := by rw [hh]; unfold height at hy1; omega
  have hget := (computeRays_get [] width height scene.camera).2 xn yn hxn hyn
  have hidx : ((yn : Int) * width + (xn : Int)).toNat = yn * width.toNat + xn := by
    rw [hw]
    unfold width
    omega
  unfold rayLookup mainInit
  rw [if_pos (by unfold width; omega), hidx]
  rw [hget]

/-- C19, evaluation of the render loop: on entry to the loop the buffer holds
`width·height` rays and every lookup `rays[y*width + x]` of the first frame is in bounds;
after the first iteration, and after every later one, `rays.clear()` has left the buffer
empty and nothing refills it, so in the second and every later frame `rays.size() = 0`
and every lookup is outside the vector. -/
theorem render_loop_buffer (scene : Scene) :
    (((mainInit scene).rays.length : Int) = width * height ∧
      ∀ x y : Int, 0 ≤ x → x < width → 0 ≤ y → y < height →
        rayLookup (mainInit scene).rays x y =
          some (pixelRay width height scene.camera x y)) ∧
    (∀ k : ℕ, (frameStep^[k + 1] (mainInit scene)).rays = [] ∧
      ((frameStep^[k + 1] (mainInit scene)).rays.length : Int) ≠ width * height ∧
      ∀ x y : Int, rayLookup (frameStep^[k + 1] (mainInit scene)).rays x y = none ∧
        pixelColor (frameStep^[k + 1] (mainInit scene)) x y = none) := by
  refine ⟨⟨?_, fun x y hx0 hx1 hy0 hy1 => rayLookup_mainInit scene x y hx0 hx1 hy0 hy1⟩, ?_⟩
  · have hlen := (computeRays_get [] width height scene.camera).1
    unfold mainInit
    rw [hlen]
    unfold width height
    norm_num
  · intro k
    have hnil := frameStep_iterate_rays (mainInit scene) k
    refine ⟨hnil, ?_, ?_⟩
    · rw [hnil]
      unfold width height
      norm_num
    · intro x y
      unfold pixelColor
      rw [hnil, rayLookup_nil]
      exact ⟨rfl, rfl⟩

/-! ## Range of the traced colour -/

theorem normalize_dot_self_le (v : Vec3) : v.normalize.dotProduct v.normalize ≤ 1 := by
  by_cases h : v = Vec3.zero
  · rw [h]
    simp [Vec3.normalize, Vec3.zero, Vec3.dotProduct]
  · exact le_of_eq (normalize_dot_self h)

theorem dot_self_nonneg (v : Vec3) : 0 ≤ v.dotProduct v := by
  simp only [Vec3.dotProduct]
  nlinarith [mul_self_nonneg v.x, mul_self_nonneg v.y, mul_self_nonneg v.z]

theorem dotProduct_le_one (a b : Vec3) (ha : a.dotProduct a ≤ 1) (hb : b.dotProduct b ≤ 1) :
    a.dotProduct b ≤ 1 := by
  simp only [Vec3.dotProduct] at ha hb ⊢
  nlinarith [sq_nonneg (a.x - b.x), sq_nonneg (a.y - b.y), sq_nonneg (a.z - b.z)]

theorem getMirrored_dot_self_le (ball : Ball) (d point : Vec3) :
    (ball.getMirrored d point).dotProduct (ball.getMirrored d point) ≤ 1 := by
  rw [getMirrored_eq]
  have hn : (ball.getNormal point).dotProduct (ball.getNormal point) ≤ 1 :=
    normalize_dot_self_le _
  have hi : d.normalize.neg.dotProduct d.normalize.neg ≤ 1 := by
    rw [neg_dot_self]
    exact normalize_dot_self_le d
  have hexp : (((ball.getNormal point).scale
        (2 * (ball.getNormal point).dotProduct d.normalize.neg)).sub
          d.normalize.neg).dotProduct
      (((ball.getNormal point).scale
        (2 * (ball.getNormal point).dotProduct d.normalize.neg)).sub d.normalize.neg) =
      4 * ((ball.getNormal point).dotProduct d.normalize.neg) ^ 2 *
          ((ball.getNormal point).dotProduct (ball.getNormal point) - 1) +
        d.normalize.neg.dotProduct d.normalize.neg := by
    simp only [Vec3.scale, Vec3.sub, Vec3.dotProduct]
    ring
  rw [hexp]
  have hsq := sq_nonneg ((ball.getNormal point).dotProduct d.normalize.neg)
  nlinarith

theorem brightness_fold_le_one (scene : Scene) (pos normal mirrored : Vec3) (ball : Ball)
    (hn : normal.dotProduct normal ≤ 1) (hm : mirrored.dotProduct mirrored ≤ 1)
    (lights : List Light) (acc : ℝ × ℝ) (hacc : acc.1 ≤ 1 ∧ acc.2 ≤ 1) :
    (lights.foldl
      (fun (acc : ℝ × ℝ) (light : Light) =>
        if checkShadow scene light pos ball then acc
        else
          (mirrored.dotProduct (light.pos.sub pos).normalize,
            normal.dotProduct (light.pos.sub pos).normalize)) acc).1 ≤ 1 ∧
    (lights.foldl
      (fun (acc : ℝ × ℝ) (light : Light) =>
        if checkShadow scene light pos ball then acc
        else
          (mirrored.dotProduct (light.pos.sub pos).normalize,
            normal.dotProduct (light.pos.sub pos).normalize)) acc).2 ≤ 1 := by
  induction lights generalizing acc with
  | nil => exact hacc
  | cons l rest ih =>
    simp only [List.foldl_cons]
    apply ih
    by_cases hs : checkShadow scene l pos ball = true
    · rw [if_pos hs]
      exact hacc
    · rw [if_neg hs]
      exact ⟨dotProduct_le_one _ _ hm (normalize_dot_self_le _),
        dotProduct_le_one _ _ hn (normalize_dot_self_le _)⟩

theorem computeBrightness_le_one (ray : Ray) (scene : Scene) (normal_ray : Ray) (ball : Ball)
    (hn : normal_ray.dir.dotProduct normal_ray.dir ≤ 1) :
    (computeBrightness ray scene normal_ray ball).1 ≤ 1 ∧
      (computeBrightness ray scene normal_ray ball).2 ≤ 1 :=
  brightness_fold_le_one scene normal_ray.pos normal_ray.dir
    (ball.getMirrored ray.dir normal_ray.pos) ball hn (getMirrored_dot_self_le _ _ _)
    scene.lights (0, 0) ⟨by norm_num, by norm_num⟩

theorem phong_channel (c d s : ℝ) (hc0 : 0 ≤ c) (hc1 : c ≤ 1) (hd : d ≤ 1) (hs : s ≤ 1) :
    0 ≤ c * 0.25 + c * 0.25 * max d 0 + c * 0.25 * max (s ^ 15) 0 ∧
      c * 0.25 + c * 0.25 * max d 0 + c * 0.25 * max (s ^ 15) 0 ≤ 0.75 := by
  have hD0 : 0 ≤ max d 0 := le_max_right _ _
  have hD1 : max d 0 ≤ 1 := max_le hd zero_le_one
  have hS0 : 0 ≤ max (s ^ 15) 0 := le_max_right _ _
  have hS1 : max (s ^ 15) 0 ≤ 1 := by
    rw [max_pow_fifteen]
    exact pow_le_one₀ (le_max_right _ _) (max_le hs zero_le_one)
  have hq : 0 ≤ c * 0.25 := by positivity
  have hq1 : c * 0.25 ≤ 0.25 := by linarith
  have h1 := mul_nonneg hq hD0
  have h2 := mul_nonneg hq hS0
  have h3 : c * 0.25 * max d 0 ≤ c * 0.25 := by
    have := mul_le_mul_of_nonneg_left hD1 hq
    linarith
  have h4 : c * 0.25 * max (s ^ 15) 0 ≤ c * 0.25 := by
    have := mul_le_mul_of_nonneg_left hS1 hq
    linarith
  constructor
  · linarith
  · linarith

/-- The facts about the selected ball that the hit branch of `trace` relies on. -/
theorem nearestHit_hit_facts (ray : Ray) (scene : Scene)
    (h : ¬ (nearestHit ray scene).closest_distance < 0) :
    (nearestHit ray scene).ball ∈ scene.balls ∧
      (nearestHit ray scene).normal_ray.dir.dotProduct (nearestHit ray scene).normal_ray.dir
        ≤ 1 := by
  have inv := nearestInv_foldl ray scene.balls
  change NearestInv ray scene.balls (nearestHit ray scene) at inv
  rcases inv with ⟨_, hst⟩ | ⟨_, pre, post, hl, _, hn, _, _⟩
  · exfalso
    apply h
    rw [hst]
    norm_num
  · constructor
    · rw [hl]
      simp
    · rw [hn]
      exact normalize_dot_self_le _

theorem localColor_range (ray : Ray) (scene : Scene)
    (hcol : ∀ b ∈ scene.balls, InUnitCube b.material.color)
    (h : ¬ (nearestHit ray scene).closest_distance < 0) :
    (0 ≤ (localColor ray scene (nearestHit ray scene)).x ∧
      (localColor ray scene (nearestHit ray scene)).x ≤ 0.75) ∧
    (0 ≤ (localColor ray scene (nearestHit ray scene)).y ∧
      (localColor ray scene (nearestHit ray scene)).y ≤ 0.75) ∧
    (0 ≤ (localColor ray scene (nearestHit ray scene)).z ∧
      (localColor ray scene (nearestHit ray scene)).z ≤ 0.75) := by
  obtain ⟨hmem, hn⟩ := nearestHit_hit_facts ray scene h
  obtain ⟨hx, hy, hz⟩ := hcol _ hmem
  obtain ⟨hs, hd⟩ := computeBrightness_le_one ray scene (nearestHit ray scene).normal_ray
    (nearestHit ray scene).ball hn
  simp only [localColor, Vec3.add, Vec3.scale]
  exact ⟨phong_channel _ _ _ hx.1 hx.2 hd hs, phong_channel _ _ _ hy.1 hy.2 hd hs,
    phong_channel _ _ _ hz.1 hz.2 hd hs⟩

theorem trace_unit (scene : Scene) (hcol : ∀ b ∈ scene.balls, InUnitCube b.material.color)
    (n : ℕ) :
    ∀ (ray : Ray) (bounces : Int), (10 - bounces).toNat = n →
      InUnitCube (trace ray scene bounces) := by
  induction n with
  | zero =>
    intro ray bounces hn
    have hb : ¬ bounces < 10 := by omega
    by_cases hc : (nearestHit ray scene).closest_distance < 0
    · rw [trace_miss ray scene bounces hc]
      obtain ⟨v, hv, hlo, hhi⟩ := computeBackground_range ray scene
      rw [hv]
      simp only [InUnitCube, Vec3.splat]
      refine ⟨⟨by linarith, hhi⟩, ⟨by linarith, hhi⟩, ⟨by linarith, hhi⟩⟩
    · rw [trace_stop ray scene bounces hc hb]
      obtain ⟨hx, hy, hz⟩ := localColor_range ray scene hcol hc
      exact ⟨⟨hx.1, by linarith [hx.2]⟩, ⟨hy.1, by linarith [hy.2]⟩, ⟨hz.1, by linarith [hz.2]⟩⟩
  | succ n ih =>
    intro ray bounces hn
    have hb : bounces < 10 := by omega
    by_cases hc : (nearestHit ray scene).closest_distance < 0
    · rw [trace_miss ray scene bounces hc]
      obtain ⟨v, hv, hlo, hhi⟩ := computeBackground_range ray scene
      rw [hv]
      simp only [InUnitCube, Vec3.splat]
      refine ⟨⟨by linarith, hhi⟩, ⟨by linarith, hhi⟩, ⟨by linarith, hhi⟩⟩
    · rw [trace_recurse ray scene bounces hc hb]
      obtain ⟨hx, hy, hz⟩ := localColor_range ray scene hcol hc
      obtain ⟨rx, ry, rz⟩ :=
        ih (reflectedRay ray (nearestHit ray scene)) (bounces + 1) (by omega)
      simp only [InUnitCube, Vec3.add, Vec3.scale]
      refine ⟨⟨?_, ?_⟩, ⟨?_, ?_⟩, ⟨?_, ?_⟩⟩ <;> linarith [hx.1, hx.2, hy.1, hy.2, hz.1, hz.2,
        rx.1, rx.2, ry.1, ry.2, rz.1, rz.2]

theorem channelByte_of_unit (v : ℝ) (_h0 : 0 ≤ v) (h1 : v ≤ 1) :
    ⌊v * 255⌋₊ ≤ 255 ∧ channelByte v = ⌊v * 255⌋₊ := by
  have hle : ⌊v * 255⌋₊ ≤ 255 := by
    apply Nat.floor_le_of_le
    push_cast
    linarith
  exact ⟨hle, Nat.mod_eq_of_lt (by omega)⟩

/-- C20: if every ball material colour of the scene lies in `[0, 1]³`, then for every ray
and every depth `≥ 0` each channel of `trace(ray, scene, depth)` lies in `[0, 1]`, so
each channel times `255` truncates to at most `255` and the 8-bit conversion of `main`
does not wrap. -/
theorem trace_color_range (ray : Ray) (scene : Scene) (depth : Int)
    (hcol : ∀ b ∈ scene.balls, InUnitCube b.material.color) (_hdepth : 0 ≤ depth) :
    InUnitCube (trace ray scene depth) ∧
      (⌊(trace ray scene depth).x * 255⌋₊ ≤ 255 ∧
        ⌊(trace ray scene depth).y * 255⌋₊ ≤ 255 ∧
        ⌊(trace ray scene depth).z * 255⌋₊ ≤ 255) ∧
      packPixel (trace ray scene depth) =
        ⌊(trace ray scene depth).x * 255⌋₊ * 65536 +
          ⌊(trace ray scene depth).y * 255⌋₊ * 256 + ⌊(trace ray scene depth).z * 255⌋₊ := by
  have hu := trace_unit scene hcol _ ray depth rfl
  obtain ⟨hx, hy, hz⟩ := hu
  have bx := channelByte_of_unit _ hx.1 hx.2
  have by_ := channelByte_of_unit _ hy.1 hy.2
  have bz := channelByte_of_unit _ hz.1 hz.2
  refine ⟨⟨hx, hy, hz⟩, ⟨bx.1, by_.1, bz.1⟩, ?_⟩
  rw [packPixel, bx.2, by_.2, bz.2]

theorem tieScene_colours : ∀ b ∈ tieScene.balls, InUnitCube b.material.color := by
  intro b hb
  simp only [tieScene, List.mem_cons, List.mem_singleton, List.not_mem_nil, or_false] at hb
  rcases hb with hb | hb <;> rw [hb] <;> norm_num [InUnitCube, colouredBall]

/-- Witness of C20: the scene of two tied balls, coloured `(1, 0, 0)` and `(0, 0, 1)`,
traced along `+z` from depth `0`. -/
theorem trace_color_range_witness :
    ((∀ b ∈ tieScene.balls, InUnitCube b.material.color) ∧ (0 : Int) ≤ 0) ∧
      InUnitCube (trace rayZ tieScene 0) :=
  ⟨⟨tieScene_colours, le_refl 0⟩,
    (trace_color_range rayZ tieScene 0 tieScene_colours (le_refl 0)).1⟩

/-! ## The hit point -/

/-- The algebra behind the hit point: a root `t` of `t² + b·t + c = 0` for a unit direction
puts `L + t·d` at distance `r` from the centre. -/
theorem root_on_sphere (dx dy dz lx ly lz r s t : ℝ)
    (hdd : dx * dx + dy * dy + dz * dz = 1)
    (hs : s * s =
      (2 * (lx * dx + ly * dy + lz * dz)) ^ 2 - 4 * 1 * (lx * lx + ly * ly + lz * lz - r ^ 2))
    (he : 2 * t = -(2 * (lx * dx + ly * dy + lz * dz)) - s) :
    (dx * t + lx) * (dx * t + lx) + (dy * t + ly) * (dy * t + ly) +
      (dz * t + lz) * (dz * t + lz) = r ^ 2 := by
  linear_combination (t ^ 2) * hdd + (1 / 4) * hs +
    (1 / 4) * (2 * t + 2 * (lx * dx + ly * dy + lz * dz) - s) * he

/-- A reported hit of a unit-direction ray puts `origin + t·dir` on the sphere. -/
theorem hit_point_on_sphere (ball : Ball) (ray : Ray) (distance t : ℝ)
    (hu : ray.dir.getLength = 1) (ht : ball.intersect ray distance = (true, t)) :
    (((ray.dir.scale t).add ray.pos).sub ball.pos).dotProduct
      (((ray.dir.scale t).add ray.pos).sub ball.pos) = ball.radius ^ 2 := by
  have hd := ne_zero_of_getLength_one hu
  have hA := quadA_eq_one hd
  have hdd : ray.dir.x * ray.dir.x + ray.dir.y * ray.dir.y + ray.dir.z * ray.dir.z = 1 := by
    have := getLength_sq ray.dir
    rw [hu] at this
    linarith
  rw [intersect_unfold ball ray distance hd] at ht
  by_cases hle : disc ball ray ≤ 0
  · rw [if_pos hle] at ht
    cases ht
  · rw [if_neg hle] at ht
    by_cases hneg : smallerRoot ball ray < 0
    · rw [if_pos hneg] at ht
      cases ht
    · rw [if_neg hneg] at ht
      have htr : smallerRoot ball ray = t := (Prod.mk.inj ht).2
      have hB : quadB ball ray =
          2 * ((ray.pos.x - ball.pos.x) * ray.dir.x + (ray.pos.y - ball.pos.y) * ray.dir.y +
            (ray.pos.z - ball.pos.z) * ray.dir.z) := by
        simp only [quadB, unitDir, normalize_of_unit _ hu, offset, Vec3.sub, Vec3.dotProduct]
      have hC : quadC ball ray =
          (ray.pos.x - ball.pos.x) * (ray.pos.x - ball.pos.x) +
            (ray.pos.y - ball.pos.y) * (ray.pos.y - ball.pos.y) +
            (ray.pos.z - ball.pos.z) * (ray.pos.z - ball.pos.z) - ball.radius ^ 2 := by
        simp only [quadC, offset, Vec3.sub, Vec3.dotProduct]
      have hs : Real.sqrt (disc ball ray) * Real.sqrt (disc ball ray) = disc ball ray :=
        Real.mul_self_sqrt (le_of_lt (not_le.mp hle))
      have hD : disc ball ray = quadB ball ray ^ 2 - 4 * 1 * quadC ball ray := by
        rw [disc, hA]
      have he : 2 * t = -quadB ball ray - Real.sqrt (disc ball ray) := by
        rw [← htr, smallerRoot, hA]
        ring
      rw [hD, hB, hC] at hs
      rw [hB] at he
      have hmain := root_on_sphere ray.dir.x ray.dir.y ray.dir.z (ray.pos.x - ball.pos.x)
        (ray.pos.y - ball.pos.y) (ray.pos.z - ball.pos.z) ball.radius
        (Real.sqrt (disc ball ray)) t hdd (by rw [hD, hB, hC]; exact hs) he
      simp only [Vec3.scale, Vec3.add, Vec3.sub, Vec3.dotProduct]
      linarith

/-- C22: for a ray whose direction has unit length, if `Ball.intersect` returns true with
distance `t`, the hit point `ray.origin + t·ray.dir` that `trace` computes from the
ray's stored direction lies on the ball's surface, `|point - center|² = radius²`; and
the point stored by the nearest-hit scan of `trace` is that point for the selected
ball. -/
theorem hit_point_on_surface (ball : Ball) (ray : Ray) (distance t : ℝ)
    (hu : ray.dir.getLength = 1) (ht : ball.intersect ray distance = (true, t)) :
    (((ray.dir.scale t).add ray.pos).sub ball.pos).dotProduct
        (((ray.dir.scale t).add ray.pos).sub ball.pos) = ball.radius ^ 2 ∧
    (((ray.dir.scale t).add ray.pos).sub ball.pos).getLength ^ 2 = ball.radius ^ 2 ∧
    (∀ scene : Scene, ¬ (nearestHit ray scene).closest_distance < 0 →
      ((nearestHit ray scene).normal_ray.pos.sub (nearestHit ray scene).ball.pos).dotProduct
          ((nearestHit ray scene).normal_ray.pos.sub (nearestHit ray scene).ball.pos) =
        (nearestHit ray scene).ball.radius ^ 2) := by
  have h1 := hit_point_on_sphere ball ray distance t hu ht
  refine ⟨h1, ?_, ?_⟩
  · rw [sq, getLength_sq]
    simp only [Vec3.dotProduct] at h1
    linarith
  · intro scene hge
    have inv := nearestInv_foldl ray scene.balls
    change NearestInv ray scene.balls (nearestHit ray scene) at inv
    rcases inv with ⟨_, hst⟩ | ⟨_, _, _, _, hhit, hn, _, _⟩
    · exfalso
      apply hge
      rw [hst]
      norm_num
    · rw [hn]
      exact hit_point_on_sphere _ ray 0 _ hu hhit

/-- Witness of C22: the ray along `+z` hits the unit ball at `(0, 0, 5)` at distance `4`;
the hit point `(0, 0, 4)` is at squared distance `1` from the centre. -/
theorem hit_point_on_surface_witness :
    (rayZ.dir.getLength = 1 ∧ (colouredBall 1 0 0).intersect rayZ 0 = (true, 4)) ∧
      (((rayZ.dir.scale 4).add rayZ.pos).sub (colouredBall 1 0 0).pos).dotProduct
        (((rayZ.dir.scale 4).add rayZ.pos).sub (colouredBall 1 0 0).pos) =
          (colouredBall 1 0 0).radius ^ 2 :=
  ⟨⟨rayZ_getLength, colouredBall_hit 1 0 0 0⟩,
    (hit_point_on_surface (colouredBall 1 0 0) rayZ 0 4 rayZ_getLength
      (colouredBall_hit 1 0 0 0)).1⟩

/-! ## A ball against rays leaving its own surface -/

theorem dotProduct_comm (a b : Vec3) : a.dotProduct b = b.dotProduct a := by
  simp only [Vec3.dotProduct]
  ring

theorem sub_ne_zero_of_ne {l p : Vec3} (h : l ≠ p) : l.sub p ≠ Vec3.zero := by
  intro hc
  apply h
  have hx := congrArg Vec3.x hc
  have hy := congrArg Vec3.y hc
  have hz := congrArg Vec3.z hc
  simp only [Vec3.sub, Vec3.zero] at hx hy hz
  ext <;> linarith

/-- The quadratic of a ray that starts on the surface: `c = 0`, `disc = b²` and `b` has
the sign of `(l - p)·(p - center)`. -/
theorem surface_quadratic (ball : Ball) (p l : Vec3)
    (hp : (p.sub ball.pos).getLength = ball.radius) (hl : l ≠ p) :
    quadB ball ⟨p, l.sub p⟩ =
        2 * ((l.sub p).dotProduct (p.sub ball.pos) / (l.sub p).getLength) ∧
      0 < (l.sub p).getLength ∧
      disc ball ⟨p, l.sub p⟩ = quadB ball ⟨p, l.sub p⟩ ^ 2 := by
  have hd : (⟨p, l.sub p⟩ : Ray).dir ≠ Vec3.zero := sub_ne_zero_of_ne hl
  have hB : quadB ball ⟨p, l.sub p⟩ =
      2 * ((l.sub p).dotProduct (p.sub ball.pos) / (l.sub p).getLength) := by
    rw [quadB, unitDir, normalize_dotProduct]
    rfl
  have hC : quadC ball ⟨p, l.sub p⟩ = 0 := by
    have hsq := getLength_sq (p.sub ball.pos)
    rw [hp] at hsq
    simp only [quadC, offset, Vec3.dotProduct]
    linarith
  refine ⟨hB, getLength_pos hd, ?_⟩
  rw [disc, hC]
  ring

/-- A ray that starts on the surface and points strictly inwards is reported as a hit at
distance `0`. -/
theorem surface_inward_hit (ball : Ball) (p l : Vec3) (distance : ℝ)
    (hp : (p.sub ball.pos).getLength = ball.radius) (hl : l ≠ p)
    (hin : (l.sub p).dotProduct (p.sub ball.pos) < 0) :
    ball.intersect ⟨p, l.sub p⟩ distance = (true, 0) := by
  have hd : (⟨p, l.sub p⟩ : Ray).dir ≠ Vec3.zero := sub_ne_zero_of_ne hl
  obtain ⟨hB, hlen, hD⟩ := surface_quadratic ball p l hp hl
  have hneg : quadB ball ⟨p, l.sub p⟩ < 0 := by
    rw [hB]
    have := div_neg_of_neg_of_pos hin hlen
    linarith
  have hS : Real.sqrt (disc ball ⟨p, l.sub p⟩) = -quadB ball ⟨p, l.sub p⟩ := by
    rw [hD, Real.sqrt_sq_eq_abs, abs_of_neg hneg]
  have hpos : ¬ disc ball ⟨p, l.sub p⟩ ≤ 0 := by
    rw [hD]
    have := pow_pos (neg_pos.mpr hneg) 2
    rw [neg_sq] at this
    linarith
  have hroot : smallerRoot ball ⟨p, l.sub p⟩ = 0 := by
    rw [smallerRoot, hS]
    simp
  rw [intersect_unfold _ _ _ hd, if_neg hpos, hroot, if_neg (lt_irrefl 0)]

/-- A ray that starts on the surface and does not point inwards is a miss. -/
theorem surface_outward_miss (ball : Ball) (p l : Vec3) (distance : ℝ)
    (hp : (p.sub ball.pos).getLength = ball.radius) (hl : l ≠ p)
    (hout : 0 ≤ (l.sub p).dotProduct (p.sub ball.pos)) :
    ball.intersect ⟨p, l.sub p⟩ distance = (false, distance) := by
  have hd : (⟨p, l.sub p⟩ : Ray).dir ≠ Vec3.zero := sub_ne_zero_of_ne hl
  obtain ⟨hB, hlen, _⟩ := surface_quadratic ball p l hp hl
  apply intersect_false_of_quadB_nonneg _ _ _ hd
  rw [hB]
  have := div_nonneg hout (le_of_lt hlen)
  linarith

/-- The diffuse term of a light has the sign of `(l - p)·(p - center)`. -/
theorem diffuse_term_nonneg (ball : Ball) (p l : Vec3)
    (hout : 0 ≤ (l.sub p).dotProduct (p.sub ball.pos)) :
    0 ≤ (ball.getNormal p).dotProduct (l.sub p).normalize := by
  rw [Ball.getNormal, normalize_dotProduct, dotProduct_comm, normalize_dotProduct]
  exact div_nonneg (div_nonneg hout (getLength_nonneg _)) (getLength_nonneg _)

/-- C21: for a ball of radius `> 0`, a point `p` exactly on its surface and a target
`l ≠ p`, the ball's own `intersect` on the ray from `p` with direction `l - p` returns
true if and only if `(l - p)·(p - center) < 0`, and then with distance `0`; a ray leaving
outwards or tangentially is a miss.  Hence, for a light at `l`: a scene made of this ball
alone shadows `p` exactly when the light is behind the tangent plane, a scene containing
the ball shadows `p` whenever it is, and a light that passes the shadow test has a
diffuse term `normal·normalize(l - p) ≥ 0`. -/
theorem surface_self_intersect (ball : Ball) (p l : Vec3) (distance : ℝ)
    (_hr : 0 < ball.radius) (hp : (p.sub ball.pos).getLength = ball.radius) (hl : l ≠ p) :
    ((ball.intersect ⟨p, l.sub p⟩ distance).1 = true ↔
        (l.sub p).dotProduct (p.sub ball.pos) < 0) ∧
    ((ball.intersect ⟨p, l.sub p⟩ distance).1 = true →
        (ball.intersect ⟨p, l.sub p⟩ distance).2 = 0) ∧
    (0 ≤ (l.sub p).dotProduct (p.sub ball.pos) →
        ball.intersect ⟨p, l.sub p⟩ distance = (false, distance)) ∧
    (∀ (scene : Scene) (light : Light) (other : Ball), light.pos = l →
      (scene.balls = [ball] →
        (checkShadow scene light p other = true ↔
          (l.sub p).dotProduct (p.sub ball.pos) < 0)) ∧
      (ball ∈ scene.balls → (l.sub p).dotProduct (p.sub ball.pos) < 0 →
        checkShadow scene light p other = true) ∧
      (ball ∈ scene.balls → checkShadow scene light p other = false →
        0 ≤ (ball.getNormal p).dotProduct (light.pos.sub p).normalize)) := by
  have hiff : ∀ d : ℝ, (ball.intersect ⟨p, l.sub p⟩ d).1 = true ↔
      (l.sub p).dotProduct (p.sub ball.pos) < 0 := by
    intro d
    constructor
    · intro htrue
      by_contra hc
      rw [surface_outward_miss ball p l d hp hl (not_lt.mp hc)] at htrue
      cases htrue
    · intro hin
      rw [surface_inward_hit ball p l d hp hl hin]
  refine ⟨hiff distance, ?_, surface_outward_miss ball p l distance hp hl, ?_⟩
  · intro htrue
    rw [surface_inward_hit ball p l distance hp hl ((hiff distance).mp htrue)]
  · intro scene light other hlight
    subst hlight
    refine ⟨?_, ?_, ?_⟩
    · intro hballs
      unfold checkShadow
      rw [checkShadowLoop_iff, hballs]
      simp only [List.mem_singleton, exists_eq_left]
      exact hiff 0
    · intro hmem hin
      unfold checkShadow
      rw [checkShadowLoop_iff]
      exact ⟨ball, hmem, (hiff 0).mpr hin⟩
    · intro hmem hfalse
      apply diffuse_term_nonneg
      by_contra hc
      have htrue : checkShadow scene light p other = true := by
        unfold checkShadow
        rw [checkShadowLoop_iff]
        exact ⟨ball, hmem, (hiff 0).mpr (not_le.mp hc)⟩
      rw [htrue] at hfalse
      cases hfalse

/-- Witness of C21: the near pole `(0, 0, 4)` of the unit ball at `(0, 0, 5)` and the
target `(0, 0, 10)` on the far side: the ball's own `intersect` reports a hit at
distance `0`. -/
theorem surface_self_intersect_witness :
    (0 < (colouredBall 1 0 0).radius ∧
      ((⟨0, 0, 4⟩ : Vec3).sub (colouredBall 1 0 0).pos).getLength =
        (colouredBall 1 0 0).radius ∧
      (⟨0, 0, 10⟩ : Vec3) ≠ ⟨0, 0, 4⟩) ∧
    (((colouredBall 1 0 0).intersect ⟨⟨0, 0, 4⟩, (⟨0, 0, 10⟩ : Vec3).sub ⟨0, 0, 4⟩⟩ 7).1 = true ∧
      ((colouredBall 1 0 0).intersect ⟨⟨0, 0, 4⟩, (⟨0, 0, 10⟩ : Vec3).sub ⟨0, 0, 4⟩⟩ 7).2 = 0) := by
  have hr : 0 < (colouredBall 1 0 0).radius := by simp [colouredBall]
  have hp : ((⟨0, 0, 4⟩ : Vec3).sub (colouredBall 1 0 0).pos).getLength =
      (colouredBall 1 0 0).radius := by
    simp only [colouredBall, Vec3.sub, sub_self, getLength_axis_z]
    norm_num
  have hl : (⟨0, 0, 10⟩ : Vec3) ≠ ⟨0, 0, 4⟩ := by
    intro hc
    have hz := congrArg Vec3.z hc
    norm_num at hz
  have hin : ((⟨0, 0, 10⟩ : Vec3).sub ⟨0, 0, 4⟩).dotProduct
      ((⟨0, 0, 4⟩ : Vec3).sub (colouredBall 1 0 0).pos) < 0 := by
    simp only [colouredBall, Vec3.sub, Vec3.dotProduct]
    norm_num
  have h := surface_self_intersect (colouredBall 1 0 0) ⟨0, 0, 4⟩ ⟨0, 0, 10⟩ 7 hr hp hl
  exact ⟨⟨hr, hp, hl⟩, h.1.mpr hin, h.2.1 (h.1.mpr hin)⟩

end

end RayTracer
